import Mathlib

/-!
Verification development for the PROJECT455 steganography backend.

The Python sources `backend/stego/audio.py` and `backend/stego/video.py`
are embedded shallowly below: byte strings become `List Nat` (each entry a
byte value), bit sequences become `List Bool`, and fallible operations
return `Except String` carrying the exception message of the source.

The helper modules `backend/stego/ecc.py`, `backend/stego/crypto.py` and
`backend/stego/wav.py` are imported by `audio.py` but are not part of the
available sources; their definitions are modelled from the specification
(sections 4.1 to 4.4) and are marked as such in their doc comments.
-/

/-- Bytes are natural numbers below 256. -/
def isBytes (l : List Nat) : Prop := ∀ b ∈ l, b < 256

instance : DecidablePred isBytes := fun l => List.decidableBAll _ l

/-- Modelled from the spec: section 4.1 BitPacker, `bytesToBits` applied to a
single byte: the eight bits of one byte, MSB first. -/
def byteToBits (b : Nat) : List Bool :=
  [b.testBit 7, b.testBit 6, b.testBit 5, b.testBit 4,
   b.testBit 3, b.testBit 2, b.testBit 1, b.testBit 0]

/-- Modelled from the spec: section 4.1 BitPacker, `bytesToBits`
(`ecc.bytes_to_bits` is imported by `audio.py` but its source is missing):
`len(bytes)*8` bits, MSB of byte 0 first. -/
def bytes_to_bits : List Nat → List Bool
  | [] => []
  | b :: bs => byteToBits b ++ bytes_to_bits bs

/-- Modelled from the spec: section 4.1 BitPacker, the byte assembled from up
to eight bits; a final partial byte is padded with zero bits on the low end. -/
def byteOfBits (l : List Bool) : Nat :=
  (l ++ List.replicate (8 - l.length) false).foldl (fun a b => 2 * a + b.toNat) 0

/-- Modelled from the spec: section 4.1 BitPacker, `bitsToBytes`
(`ecc.bits_to_bytes` is imported by `audio.py` but its source is missing):
inverse of `bytesToBits`, zero padding the final partial byte. -/
def bits_to_bytes : List Bool → List Nat
  | [] => []
  | b0 :: b1 :: b2 :: b3 :: b4 :: b5 :: b6 :: b7 :: rest =>
    byteOfBits [b0, b1, b2, b3, b4, b5, b6, b7] :: bits_to_bytes rest
  | l => [byteOfBits l]

/-- Big-endian encoding of `n` on `k` bytes (Python `int.to_bytes(k, "big")`). -/
def toBytesBE : Nat → Nat → List Nat
  | 0, _ => []
  | k + 1, n => toBytesBE k (n / 256) ++ [n % 256]

/-- Big-endian decoding of a byte list (Python `int.from_bytes(_, "big")`). -/
def fromBytesBE (l : List Nat) : Nat :=
  l.foldl (fun a b => a * 256 + b) 0

/-- Modelled from the spec: section 4.2 HammingECC. Encode one block of up to
four data bits (zero padding the final incomplete block) into a systematic
Hamming(7,4) codeword: the four data bits followed by three parity bits. -/
def hammingEncodeBlock (d : List Bool) : List Bool :=
  let d0 := d.getD 0 false
  let d1 := d.getD 1 false
  let d2 := d.getD 2 false
  let d3 := d.getD 3 false
  [d0, d1, d2, d3,
   Bool.xor d0 (Bool.xor d1 d2),
   Bool.xor d1 (Bool.xor d2 d3),
   Bool.xor d0 (Bool.xor d1 d3)]

/-- Modelled from the spec: section 4.2 HammingECC `encode`
(`ecc.hamming_encode` is imported by `audio.py` but its source is missing):
group the input into 4-bit blocks and emit a 7-bit codeword per block. -/
def hamming_encode : List Bool → List Bool
  | [] => []
  | b0 :: b1 :: b2 :: b3 :: rest =>
    hammingEncodeBlock [b0, b1, b2, b3] ++ hamming_encode rest
  | l => hammingEncodeBlock l

/-- Modelled from the spec: section 4.2 HammingECC. Decode one 7-bit codeword
(zero padded): compute the syndrome, flip the bit at the syndrome-indicated
position when the syndrome is non-zero, and return the four data bits. -/
def hammingDecodeBlock (c : List Bool) : List Bool :=
  let c0 := c.getD 0 false
  let c1 := c.getD 1 false
  let c2 := c.getD 2 false
  let c3 := c.getD 3 false
  let c4 := c.getD 4 false
  let c5 := c.getD 5 false
  let c6 := c.getD 6 false
  let s1 := Bool.xor c0 (Bool.xor c1 (Bool.xor c2 c4))
  let s2 := Bool.xor c1 (Bool.xor c2 (Bool.xor c3 c5))
  let s3 := Bool.xor c0 (Bool.xor c1 (Bool.xor c3 c6))
  let w := [c0, c1, c2, c3, c4, c5, c6]
  let fixed :=
    match s1, s2, s3 with
    | false, false, false => w
    | true, false, true => w.set 0 (!c0)
    | true, true, true => w.set 1 (!c1)
    | true, true, false => w.set 2 (!c2)
    | false, true, true => w.set 3 (!c3)
    | true, false, false => w.set 4 (!c4)
    | false, true, false => w.set 5 (!c5)
    | false, false, true => w.set 6 (!c6)
  fixed.take 4

/-- Modelled from the spec: section 4.2 HammingECC `decode`
(`ecc.hamming_decode` is imported by `audio.py` but its source is missing):
group into 7-bit codewords and decode each one. -/
def hamming_decode : List Bool → List Bool
  | [] => []
  | c0 :: c1 :: c2 :: c3 :: c4 :: c5 :: c6 :: rest =>
    hammingDecodeBlock [c0, c1, c2, c3, c4, c5, c6] ++ hamming_decode rest
  | l => hammingDecodeBlock l

/-- Byte view of a Python `str` (`password.encode()`), modelled for the
ASCII texts used by the backend. -/
def strBytes (s : String) : List Nat := s.data.map (fun c => c.toNat % 256)

/-- Modelled from the spec: section 4.3 StreamCipher `deriveKey`
(`crypto.derive_key` is imported by `audio.py` but its source is missing):
a deterministic password-based key-derivation function producing a
fixed-size (16 byte) symmetric key; same password gives the same key. -/
def derive_key (password : String) : List Nat :=
  (List.range 16).map (fun i =>
    (strBytes password).foldl (fun a b => (a * 131 + b + 1) % 256) (i % 256))

/-- Modelled from the spec: section 4.3 StreamCipher: the deterministic
counter-mode keystream byte at index `i`, derived from the key alone. -/
def keystream (key : List Nat) (i : Nat) : Nat :=
  (key.foldl (fun a b => (a * 131 + b + 1) % 256) (i % 65536)) % 256

/-- Modelled from the spec: section 4.3 StreamCipher `encrypt`
(`crypto.encrypt_ctr` is imported by `audio.py` but its source is missing):
`ciphertext[i] = plaintext[i] XOR keystream[i]`. -/
def encrypt_ctr (key : List Nat) (pt : List Nat) : List Nat :=
  (List.range pt.length).map (fun i => pt.getD i 0 ^^^ keystream key i)

/-- Modelled from the spec: section 4.3 StreamCipher `decrypt`
(`crypto.decrypt_ctr` is imported by `audio.py` but its source is missing):
`decrypt` is `encrypt` applied again (symmetric XOR stream). -/
def decrypt_ctr (key : List Nat) (ct : List Nat) : List Nat :=
  encrypt_ctr key ct

/-- ASCII bytes of the RIFF container id "RIFF". -/
def riffId : List Nat := [82, 73, 70, 70]

/-- ASCII bytes of the RIFF form id "WAVE". -/
def waveId : List Nat := [87, 65, 86, 69]

/-- ASCII bytes of the sub-chunk id "data". -/
def dataId : List Nat := [100, 97, 116, 97]

/-- ASCII bytes of the sub-chunk id "fmt " (with trailing space). -/
def fmtId : List Nat := [102, 109, 116, 32]

/-- Read `n` consecutive bytes of `bs` starting at position `p`. -/
def readN (bs : List Nat) (p n : Nat) : List Nat :=
  (List.range n).map (fun i => bs.getD (p + i) 0)

/-- Little-endian value of `n` bytes of `bs` starting at position `p`. -/
def readLE (bs : List Nat) (p n : Nat) : Nat :=
  (readN bs p n).foldr (fun b a => a * 256 + b) 0

/-- Modelled from the spec: section 4.4 WavContainer: scan the RIFF sub-chunks
from position `p`, remembering `bits_per_sample/8` from the `fmt ` chunk, and
return `(dataOffset, dataByteLength, sampleWidthBytes)` at the `data` chunk.
The fuel argument bounds the scan; each chunk consumes at least eight bytes,
so `bs.length` steps always suffice. -/
def findData (bs : List Nat) : Nat → Option Nat → Nat → Option (Nat × Nat × Nat)
  | _, _, 0 => none
  | p, sw, fuel + 1 =>
    if p + 8 ≤ bs.length then
      if readN bs p 4 = dataId then
        if p + 8 + readLE bs (p + 4) 4 ≤ bs.length then
          some (p + 8, readLE bs (p + 4) 4, sw.getD 2)
        else none
      else
        findData bs (p + 8 + readLE bs (p + 4) 4)
          (if readN bs p 4 = fmtId ∧ 16 ≤ readLE bs (p + 4) 4 ∧ p + 24 ≤ bs.length
           then some (readLE bs (p + 22) 2 / 8) else sw) fuel
    else none

/-- Modelled from the spec: section 4.4 WavContainer `parse`
(`wav.parse_wav` is imported by `audio.py` but its source is missing):
require a `RIFF....WAVE` header, scan sub-chunks from offset 12, and return
`(dataOffset, dataByteLength, sampleWidthBytes)`; `none` models
`WavFormatError` for a missing header or absent/truncated `data` chunk. -/
def parse_wav (bs : List Nat) : Option (Nat × Nat × Nat) :=
  if readN bs 0 4 = riffId ∧ readN bs 8 4 = waveId then
    findData bs 12 none bs.length
  else none

/-- ASCII bytes of the audio magic marker "STG1" (`audio.py` line 8). -/
def MAGIC : List Nat := [83, 84, 71, 49]

/-- Bit `k` of the byte string `full`, MSB first: Python
`(full[bit_index >> 3] >> (7 - (bit_index & 7))) & 1` (`audio.py` lines 48-49). -/
def bitAt (full : List Nat) (k : Nat) : Nat :=
  (full.getD (k / 8) 0 >>> (7 - k % 8)) &&& 1

/-- The embedding loop of `embed_audio` (`audio.py` lines 46-52): write bit
`k` of `full` into the low bit of the byte at `data_offset + k * 2`, for every
`k` below `n`. -/
def writeBits (wav : List Nat) (data_offset : Nat) (full : List Nat) : Nat → List Nat
  | 0 => wav
  | n + 1 =>
    let w := writeBits wav data_offset full n
    w.set (data_offset + n * 2) ((w.getD (data_offset + n * 2) 0 &&& 0xFE) ||| bitAt full n)

/-- Translation of `embed_audio` (`audio.py` lines 21-53). The password check
is `_ensure_audio` (lines 11-17); the `OverflowError` branch models Python
`len(encrypted).to_bytes(4, "big")` failing when the length needs more than
four bytes (line 33, raised before the capacity check). -/
def embed_audio (wav_bytes payload : List Nat) (password : String)
    (encrypt use_ecc : Bool) : Except String (List Nat) :=
  match parse_wav wav_bytes with
  | none => .error "WavFormatError"
  | some (data_offset, data_size, _) =>
    if encrypt ∧ password = "" then .error "Password required when encryption=True"
    else
      let encrypted := if encrypt then encrypt_ctr (derive_key password) payload else payload
      if 4294967296 ≤ encrypted.length then .error "OverflowError"
      else
        let header := MAGIC ++ [if use_ecc then 1 else 0] ++ toBytesBE 4 encrypted.length
        let body := bits_to_bytes
          (if use_ecc then hamming_encode (bytes_to_bits encrypted) else bytes_to_bits encrypted)
        let full := header ++ body
        if data_size / 2 < full.length * 8 then .error "Not enough capacity in carrier audio"
        else .ok (writeBits wav_bytes data_offset full (full.length * 8))

/-- Low bit of the sample byte holding embedded bit `k`:
Python `wav_bytes[data_offset + absolute_bit * 2] & 1` (`audio.py` line 71). -/
def lsbAt (wav : List Nat) (data_offset k : Nat) : Bool :=
  (wav.getD (data_offset + k * 2) 0).testBit 0

/-- The `count` embedded bits starting at bit position `start`. -/
def lsbSlice (wav : List Nat) (data_offset start count : Nat) : List Bool :=
  (List.range count).map (fun i => lsbAt wav data_offset (start + i))

/-- Translation of the inner `read_bits` of `extract_audio` (`audio.py`
lines 65-73): collect `count` sample LSBs starting at bit `start_bit`, or
raise "Truncated payload" when some requested bit is at or past
`total_samples`. -/
def read_bits (wav : List Nat) (data_offset total_samples count start_bit : Nat) :
    Except String (List Bool) :=
  if count ≠ 0 ∧ total_samples < start_bit + count then .error "Truncated payload"
  else .ok (lsbSlice wav data_offset start_bit count)

/-- The body bit count computed by `extract_audio` from the decoded length
field (`audio.py` lines 83-88). -/
def body_bits_of (use_ecc : Bool) (enc_len : Nat) : Nat :=
  if use_ecc then (enc_len * 8 * 7 + 3) / 4 else enc_len * 8

/-- Translation of `extract_audio` (`audio.py` lines 56-99). The key is only
computed (and used) when `encrypt` is true, exactly as `_ensure_audio` plus
the final `decrypt_ctr` call behave in the source. -/
def extract_audio (wav_bytes : List Nat) (password : String) (encrypt : Bool) :
    Except String (List Nat) :=
  match parse_wav wav_bytes with
  | none => .error "WavFormatError"
  | some (data_offset, data_size, _) =>
    if encrypt ∧ password = "" then .error "Password required when encryption=True"
    else
      (read_bits wav_bytes data_offset (data_size / 2) 32 0).bind (fun wav_bits =>
        if (bits_to_bytes wav_bits).take 4 = MAGIC then
          (read_bits wav_bytes data_offset (data_size / 2) 8 32).bind (fun flag_bits =>
            (read_bits wav_bytes data_offset (data_size / 2) 32 40).bind (fun len_bits =>
              (read_bits wav_bytes data_offset (data_size / 2)
                  (body_bits_of ((bits_to_bytes flag_bits).getD 0 0 &&& 1 == 1)
                    (fromBytesBE ((bits_to_bytes len_bits).take 4))) 72).bind (fun raw_bits =>
                .ok (if encrypt then
                      decrypt_ctr (derive_key password)
                        ((bits_to_bytes (if (bits_to_bytes flag_bits).getD 0 0 &&& 1 == 1
                            then hamming_decode raw_bits else raw_bits)).take
                          (fromBytesBE ((bits_to_bytes len_bits).take 4)))
                    else
                      (bits_to_bytes (if (bits_to_bytes flag_bits).getD 0 0 &&& 1 == 1
                          then hamming_decode raw_bits else raw_bits)).take
                        (fromBytesBE ((bits_to_bytes len_bits).take 4))))))
        else .error "No payload found")

/-- The encrypted (or passed-through) payload computed by `embed_audio`. -/
def audioEncrypted (payload : List Nat) (password : String) (encrypt : Bool) : List Nat :=
  if encrypt then encrypt_ctr (derive_key password) payload else payload

/-- The 9-byte header `MAGIC | flags | len32` built by `embed_audio`. -/
def audioHeader (payload : List Nat) (password : String) (encrypt use_ecc : Bool) : List Nat :=
  MAGIC ++ [if use_ecc then 1 else 0] ++ toBytesBE 4 (audioEncrypted payload password encrypt).length

/-- The body bit sequence of `embed_audio`: the payload bits, Hamming-encoded
when `use_ecc` is set. -/
def audioBodyBits (payload : List Nat) (password : String) (encrypt use_ecc : Bool) : List Bool :=
  if use_ecc then hamming_encode (bytes_to_bits (audioEncrypted payload password encrypt))
  else bytes_to_bits (audioEncrypted payload password encrypt)

/-- The full embedded byte string `header + body` of `embed_audio`. -/
def audioFull (payload : List Nat) (password : String) (encrypt use_ecc : Bool) : List Nat :=
  audioHeader payload password encrypt use_ecc ++
    bits_to_bytes (audioBodyBits payload password encrypt use_ecc)

/-- The total number of embedded bits of `embed_audio`. -/
def audioTotalBits (payload : List Nat) (password : String) (encrypt use_ecc : Bool) : Nat :=
  (audioFull payload password encrypt use_ecc).length * 8

/-- ASCII bytes of the video magic marker "VST2" (`video.py` line 34, `_MAGIC`). -/
def VMAGIC : List Nat := [86, 83, 84, 50]

/-- Header size of the video wire format: 4 bytes magic + 4 bytes length
(`video.py` line 35, `_HEADER_SIZE`). -/
def HEADER_SIZE : Nat := 8

/-- Hard input ceiling of the video endpoints (`video.py` line 38). -/
def MAX_VIDEO_BYTES : Nat := 64 * 1024 * 1024

/-- Byte view of a Python `str` via `.encode()`, shared by the XOR cipher. -/
def concatBytes : List (List Nat) → List Nat
  | [] => []
  | x :: xs => x ++ concatBytes xs

/-- Translation of `_encrypt` (`video.py` lines 25-27): repeating-key XOR with
the raw password bytes. `none` models the `ZeroDivisionError` of
`key[i % len(key)]` on an empty key, which only occurs when `data` is
non-empty (an empty comprehension never evaluates the index expression). -/
def xor_encrypt (data : List Nat) (password : String) : Option (List Nat) :=
  if data ≠ [] ∧ strBytes password = [] then none
  else some ((List.range data.length).map
    (fun i => data.getD i 0 ^^^ (strBytes password).getD (i % (strBytes password).length) 0))

/-- Translation of `_decrypt` (`video.py` lines 30-31): XOR decrypt = encrypt. -/
def xor_decrypt (data : List Nat) (password : String) : Option (List Nat) :=
  xor_encrypt data password

/-- Character of the standard base64 alphabet at index `n`. -/
def b64char (n : Nat) : Nat :=
  if n < 26 then 65 + n
  else if n < 52 then 97 + (n - 26)
  else if n < 62 then 48 + (n - 52)
  else if n = 62 then 43 else 47

/-- Standard base64 encoding (the Python `base64.b64encode` library call used
by `video.py`): 3-byte groups become 4 alphabet characters, with `=` (61)
padding for a trailing group of 1 or 2 bytes. -/
def base64_encode : List Nat → List Nat
  | [] => []
  | [a] => [b64char (a / 4), b64char (a % 4 * 16), 61, 61]
  | [a, b] => [b64char (a / 4), b64char (a % 4 * 16 + b / 16), b64char (b % 16 * 4), 61]
  | a :: b :: c :: rest =>
    b64char (a / 4) :: b64char (a % 4 * 16 + b / 16) :: b64char (b % 16 * 4 + c / 64) ::
      b64char (c % 64) :: base64_encode rest

/-- Value of a base64 alphabet character, `none` outside the alphabet. -/
def b64val (c : Nat) : Option Nat :=
  if 65 ≤ c ∧ c ≤ 90 then some (c - 65)
  else if 97 ≤ c ∧ c ≤ 122 then some (c - 97 + 26)
  else if 48 ≤ c ∧ c ≤ 57 then some (c - 48 + 52)
  else if c = 43 then some 62
  else if c = 47 then some 63
  else none

/-- Standard base64 decoding (the Python `base64.b64decode` library call used
by `video.py`), modelled strictly: 4-character groups, `=` padding only in
the final group. -/
def base64_decode : List Nat → Option (List Nat)
  | [] => some []
  | a :: b :: c :: d :: rest =>
    (match b64val a, b64val b with
    | some va, some vb =>
      if c = 61 ∧ d = 61 ∧ rest = [] then some [va * 4 + vb / 16]
      else
        (match b64val c with
        | some vc =>
          if d = 61 ∧ rest = [] then some [va * 4 + vb / 16, vb % 16 * 16 + vc / 4]
          else
            (match b64val d with
            | some vd =>
              (match base64_decode rest with
              | some tail =>
                some ((va * 4 + vb / 16) :: (vb % 16 * 16 + vc / 4) :: (vc % 4 * 64 + vd) :: tail)
              | none => none)
            | none => none)
        | none => none)
    | _, _ => none)
  | _ => none

/-- The two payload object shapes serialized by `embed_video` and `image.py`:
a text secret or a file secret with filename and base64 data. -/
inductive PayloadObj : Type
  | text (data : String)
  | file (filename data : String)

/-- String from raw bytes (ASCII model of Python `bytes.decode("utf-8")`). -/
def stringOfNats (l : List Nat) : String := String.mk (l.map Char.ofNat)

/-- Lower-case hexadecimal digit character for a value below 16. -/
def hexDigit (n : Nat) : Nat := if n < 10 then 48 + n else 97 + (n - 10)

/-- JSON escape of one character code, as Python `json.dumps` emits it with
its default `ensure_ascii=True`. -/
def jsonEscapeChar (c : Nat) : List Nat :=
  if c = 34 then [92, 34]
  else if c = 92 then [92, 92]
  else if c = 10 then [92, 110]
  else if c = 13 then [92, 114]
  else if c = 9 then [92, 116]
  else if c < 32 ∨ 127 ≤ c then
    [92, 117, hexDigit (c / 4096 % 16), hexDigit (c / 256 % 16),
     hexDigit (c / 16 % 16), hexDigit (c % 16)]
  else [c]

/-- A JSON string literal: quote, escaped characters, quote. -/
def jsonStringLit (s : String) : List Nat :=
  [34] ++ concatBytes ((strBytes s).map jsonEscapeChar) ++ [34]

/-- The Python `json.dumps` library call on the two payload object shapes of
`video.py` (default separators, so a space follows each colon and comma). -/
def jsonDumps : PayloadObj → List Nat
  | .text data =>
    [123] ++ strBytes "\"type\": \"text\", \"data\": " ++ jsonStringLit data ++ [125]
  | .file filename data =>
    [123] ++ strBytes "\"type\": \"file\", \"filename\": " ++ jsonStringLit filename ++
      strBytes ", \"data\": " ++ jsonStringLit data ++ [125]

/-- Strip an expected byte pattern from the head of a list. -/
def dropPat : List Nat → List Nat → Option (List Nat)
  | [], l => some l
  | _ :: _, [] => none
  | p :: ps, x :: xs => if x = p then dropPat ps xs else none

/-- Value of a hexadecimal digit character. -/
def hexVal (c : Nat) : Option Nat :=
  if 48 ≤ c ∧ c ≤ 57 then some (c - 48)
  else if 97 ≤ c ∧ c ≤ 102 then some (c - 97 + 10)
  else if 65 ≤ c ∧ c ≤ 70 then some (c - 65 + 10)
  else none

/-- Body of a JSON string literal: consume characters up to the closing
quote, handling the escapes `jsonEscapeChar` can produce plus `\/`. -/
def parseJPStr : Nat → List Nat → Option (List Char × List Nat)
  | 0, _ => none
  | _ + 1, [] => none
  | fuel + 1, c :: rest =>
    if c = 34 then some ([], rest)
    else if c = 92 then
      (match rest with
      | [] => none
      | e :: rest2 =>
        if e = 34 ∨ e = 92 ∨ e = 47 then
          (match parseJPStr fuel rest2 with
          | some (cs, r) => some (Char.ofNat e :: cs, r)
          | none => none)
        else if e = 110 ∨ e = 114 ∨ e = 116 then
          (match parseJPStr fuel rest2 with
          | some (cs, r) =>
            some (Char.ofNat (if e = 110 then 10 else if e = 114 then 13 else 9) :: cs, r)
          | none => none)
        else if e = 117 then
          (match rest2 with
          | h1 :: h2 :: h3 :: h4 :: rest3 =>
            (match hexVal h1, hexVal h2, hexVal h3, hexVal h4 with
            | some v1, some v2, some v3, some v4 =>
              (match parseJPStr fuel rest3 with
              | some (cs, r) =>
                some (Char.ofNat (v1 * 4096 + v2 * 256 + v3 * 16 + v4) :: cs, r)
              | none => none)
            | _, _, _, _ => none)
          | _ => none)
        else none)
    else
      (match parseJPStr fuel rest with
      | some (cs, r) => some (Char.ofNat c :: cs, r)
      | none => none)

/-- A JSON string literal with its remainder. -/
def parseJString (l : List Nat) : Option (String × List Nat) :=
  match l with
  | 34 :: rest =>
    (match parseJPStr (rest.length + 1) rest with
    | some (cs, r) => some (String.mk cs, r)
    | none => none)
  | _ => none

/-- The Python `json.loads` library call used by `extract_video`, modelled on
the two object shapes the embedders produce; anything else is a parse
failure. -/
def jsonLoads (raw : List Nat) : Option PayloadObj :=
  match dropPat ([123] ++ strBytes "\"type\": \"text\", \"data\": ") raw with
  | some rest =>
    (match parseJString rest with
    | some (data, r) => if r = [125] then some (.text data) else none
    | none => none)
  | none =>
    match dropPat ([123] ++ strBytes "\"type\": \"file\", \"filename\": ") raw with
    | some rest =>
      (match parseJString rest with
      | some (fn, r) =>
        (match dropPat (strBytes ", \"data\": ") r with
        | some r2 =>
          (match parseJString r2 with
          | some (data, r3) => if r3 = [125] then some (.file fn data) else none
          | none => none)
        | none => none)
      | none => none)
    | none => none

/-- Result triple of `extract_video`: `(textOrNone, fileBytesOrNone,
filenameOrNone)` (`video.py` line 244). -/
def VideoResult : Type := Option String × Option (List Nat) × Option String

/-- The payload decoding tail of `extract_video` (`video.py` lines 341-365):
base64-decode, XOR-decrypt (both failures map to the same message through the
`except` clause), JSON-parse, and dispatch on the payload type. -/
def decodeVideoTail (payload_bytes : List Nat) (password : String) :
    Except String VideoResult :=
  match base64_decode payload_bytes with
  | none => .error "Incorrect password or corrupted payload"
  | some encrypted =>
    match xor_decrypt encrypted password with
    | none => .error "Incorrect password or corrupted payload"
    | some raw =>
      match jsonLoads raw with
      | none => .error "Invalid embedded data format"
      | some (.text data) => .ok (some data, none, none)
      | some (.file filename data) =>
        match base64_decode (strBytes data) with
        | none => .error "Corrupted embedded file data"
        | some file_bytes =>
          .ok (none, some file_bytes,
            some (if filename = "" then "secret.bin" else filename))

/-- Python truthiness of the optional secret message (`not secret_message`). -/
def msgTruthy : Option String → Bool
  | none => false
  | some s => s ≠ ""

/-- Python truthiness of the optional secret file (`not secret_file`). -/
def fileTruthy : Option (List Nat) → Bool
  | none => false
  | some f => f ≠ []

/-- The payload object built by `embed_video` (`video.py` lines 107-118):
a file object whenever `secret_file is not None` (filename defaulting to
"secret.bin", data base64-armored), else a text object. -/
def buildPayloadObj (secret_message : Option String) (secret_file : Option (List Nat))
    (secret_filename : Option String) : PayloadObj :=
  match secret_file with
  | some f =>
    .file (match secret_filename with
      | some fn => if fn = "" then "secret.bin" else fn
      | none => "secret.bin")
      (stringOfNats (base64_encode f))
  | none => .text (secret_message.getD "")

/-- The base64-armored XOR-encrypted payload of `embed_video`
(`video.py` lines 120-122). -/
def videoArmored (secret_message : Option String) (secret_file : Option (List Nat))
    (secret_filename : Option String) (password : String) : List Nat :=
  base64_encode ((xor_encrypt
    (jsonDumps (buildPayloadObj secret_message secret_file secret_filename)) password).getD [])

/-- The full embedded byte string `MAGIC | len32 | armored` of `embed_video`
(`video.py` lines 124-126). -/
def videoFullPayload (secret_message : Option String) (secret_file : Option (List Nat))
    (secret_filename : Option String) (password : String) : List Nat :=
  VMAGIC ++ toBytesBE 4 (videoArmored secret_message secret_file secret_filename password).length
    ++ videoArmored secret_message secret_file secret_filename password

/-- One step of the embedding loop of `embed_video` (`video.py` lines
185-192): write the next payload bits into the LSBs of the leading channel
samples of one flattened frame, returning the rewritten frame and the
remaining bits. -/
def embedFrameBits : List Nat → List Bool → List Nat × List Bool
  | f, [] => (f, [])
  | [], bs => ([], bs)
  | v :: f, b :: bs =>
    let r := embedFrameBits f bs
    ((v &&& 0xFE ||| b.toNat) :: r.1, r.2)

/-- The frame loop of `embed_video` (`video.py` lines 180-196): feed the
payload bits through the frames in order. -/
def embedFrames : List (List Nat) → List Bool → List (List Nat) × List Bool
  | [], bs => ([], bs)
  | f :: fs, bs =>
    let r := embedFrameBits f bs
    let r2 := embedFrames fs r.2
    (r.1 :: r2.1, r2.2)

/-- The LSB stream of a frame sequence: the low bit of every channel sample
in frame order, raster order within a frame (`video.py` lines 293-295). -/
def lsbStream (frames : List (List Nat)) : List Bool :=
  (concatBytes frames).map (fun v => v.testBit 0)

/-- Translation of `embed_video` (`video.py` lines 43-236). The external
collaborators are abstracted at their boundary: the transcoder scaling step
and the frame source are replaced by the flattened frame list, width and
height they deliver, and the final remux step (which does not touch the
embedded video stream) is dropped, so the result is the bit-modified frame
sequence. `video_len` is the byte length of the uploaded carrier checked
against `MAX_VIDEO_BYTES`. The `OverflowError` branch models
`payload_len.to_bytes(4, "big")` on an over-long armored payload; the
`ZeroDivisionError` branch models `_encrypt` with an empty key (both are
unreachable through the guarded public entry). -/
def embed_video (video_len : Nat) (frames : List (List Nat)) (width height : Nat)
    (password : String) (secret_message : Option String)
    (secret_file : Option (List Nat)) (secret_filename : Option String) :
    Except String (List (List Nat)) :=
  if password = "" then .error "Password is required for video steganography"
  else if ¬msgTruthy secret_message ∧ ¬fileTruthy secret_file then
    .error "Either secret_message or secret_file must be provided"
  else if MAX_VIDEO_BYTES < video_len then .error "Video too large for this server plan"
  else if width = 0 ∨ height = 0 then .error "Invalid video dimensions"
  else
    match xor_encrypt
        (jsonDumps (buildPayloadObj secret_message secret_file secret_filename)) password with
    | none => .error "ZeroDivisionError"
    | some encrypted =>
      if 4294967296 ≤ (base64_encode encrypted).length then .error "OverflowError"
      else
        if frames.length * width * height * 3 <
            (VMAGIC ++ toBytesBE 4 (base64_encode encrypted).length ++
              base64_encode encrypted).length * 8 then
          .error "Payload too large for this video"
        else
          if (embedFrames frames (bytes_to_bits (VMAGIC ++
              toBytesBE 4 (base64_encode encrypted).length ++ base64_encode encrypted))).2
              ≠ [] then
            .error "Unexpected error: ran out of frames before embedding completed"
          else
            .ok (embedFrames frames (bytes_to_bits (VMAGIC ++
              toBytesBE 4 (base64_encode encrypted).length ++ base64_encode encrypted))).1

/-- Translation of `extract_video` (`video.py` lines 242-365). The frame
source is abstracted as the flattened frame list; collecting bits frame by
frame with early exit yields exactly the prefix of the LSB stream, the first
64 bits parsed as `magic | len32` as soon as collected, then `len*8` payload
bits. -/
def extract_video (video_len : Nat) (frames : List (List Nat)) (width height : Nat)
    (password : String) : Except String VideoResult :=
  if password = "" then .error "Password is required for video steganography"
  else if MAX_VIDEO_BYTES < video_len then .error "Video too large for this server plan"
  else if width = 0 ∨ height = 0 then .error "Invalid stego video dimensions"
  else if (lsbStream frames).length < HEADER_SIZE * 8 then
    .error "No embedded payload found in video (incomplete header)"
  else if (bits_to_bytes ((lsbStream frames).take (HEADER_SIZE * 8))).take 4 ≠ VMAGIC then
    .error "No embedded payload found in video (magic mismatch)"
  else if fromBytesBE ((bits_to_bytes ((lsbStream frames).take (HEADER_SIZE * 8))).drop 4) = 0 then
    .error "Invalid embedded payload length"
  else if (lsbStream frames).length < HEADER_SIZE * 8 +
      fromBytesBE ((bits_to_bytes ((lsbStream frames).take (HEADER_SIZE * 8))).drop 4) * 8 then
    .error "Stego video ended before payload was fully read"
  else
    decodeVideoTail (bits_to_bytes (((lsbStream frames).drop (HEADER_SIZE * 8)).take
      (fromBytesBE ((bits_to_bytes ((lsbStream frames).take (HEADER_SIZE * 8))).drop 4) * 8)))
      password

/-- Whether an `Except` computation succeeded. -/
def isOkB {ε α : Type} : Except ε α → Bool
  | .ok _ => true
  | .error _ => false

/-- A minimal RIFF/WAVE byte buffer whose `data` chunk holds `data`. -/
def mkWav (data : List Nat) : List Nat :=
  riffId ++ [0, 0, 0, 0] ++ waveId ++ dataId ++
    [data.length % 256, data.length / 256 % 256,
     data.length / 65536 % 256, data.length / 16777216 % 256] ++ data

/-- Interleave bits as sample LSBs with a 16-bit stride: each bit becomes the
low byte of one sample, followed by a zero upper byte. -/
def interleave2 : List Bool → List Nat
  | [] => []
  | b :: bs => b.toNat :: 0 :: interleave2 bs

/-- A single flat frame whose channel LSBs carry the given bits. -/
def framesOfBits (bits : List Bool) : List (List Nat) :=
  [bits.map (fun b => b.toNat)]

/-- Concrete 196-byte WAV carrier: 176 zero data bytes (88 samples). -/
def wavC1 : List Nat := mkWav (List.replicate 176 0)

/-- Concrete embedded carrier for the C2 witness. -/
def stegoC2 : List Nat := (embed_audio wavC1 [1] "x" false true).toOption.getD []

/-- Concrete 164-byte WAV carrier with 144 data bytes: capacity 72 bits. -/
def wavC4 : List Nat := mkWav (List.replicate 144 0)

/-- Concrete 162-byte WAV carrier with 142 data bytes: capacity 71 bits. -/
def wavC4s : List Nat := mkWav (List.replicate 142 0)

/-- Concrete 84-byte WAV carrier with 64 zero data bytes. -/
def wavC6 : List Nat := mkWav (List.replicate 64 0)

/-- Concrete all-zero frame stream, 64 channel samples. -/
def framesC6 : List (List Nat) := [List.replicate 64 0]

/-- Concrete carrier whose LSBs declare an STG1 payload of 256 bytes inside a
72-sample data chunk. -/
def wavC7 : List Nat := mkWav (interleave2 (bytes_to_bits (MAGIC ++ [0] ++ [0, 0, 1, 0])))

/-- A frame stream of only 10 samples: too short for the 64-bit header. -/
def framesC7a : List (List Nat) := [List.replicate 10 0]

/-- A frame stream carrying exactly a VST2 header that declares 1 payload
byte but holds no payload bits. -/
def framesC7b : List (List Nat) := framesOfBits (bytes_to_bits (VMAGIC ++ [0, 0, 0, 1]))

/-- One all-zero 384-sample frame at 16 x 8 resolution: capacity 384 bits. -/
def framesC8 : List (List Nat) := [List.replicate 384 0]

/-- The parameters of `embed_video` nameable as keywords
(`video.py` lines 43-51). -/
def embedVideoKeywords : List String :=
  ["video_bytes", "password", "container", "secret_message", "secret_file",
   "secret_filename"]

/-- The parameters of `extract_video` nameable as keywords
(`video.py` lines 242-244). -/
def extractVideoKeywords : List String := ["video_bytes", "password"]

/-- The keyword arguments `app.py` passes to `embed_video`
(`app.py` lines 199-207). -/
def appEmbedVideoKwargs : List String :=
  ["container", "encrypt", "secret_message", "secret_file", "secret_filename"]

/-- The keyword arguments `app.py` passes to `extract_video`
(`app.py` lines 230-234). -/
def appExtractVideoKwargs : List String := ["encrypt"]

/-- Python keyword binding: a call raises `TypeError` unless every passed
keyword names a parameter of the callee. -/
def kwargsAccepted (accepted passed : List String) : Bool :=
  passed.all (fun k => accepted.contains k)

/-- The plaintext (never-encrypted) armored payload for the text "A". -/
def rawC9 : List Nat := jsonDumps (.text "A")

/-- A full video payload whose body is armored but NOT XOR-encrypted. -/
def plainFullC9 : List Nat :=
  VMAGIC ++ toBytesBE 4 (base64_encode rawC9).length ++ base64_encode rawC9

/-- A frame stream carrying the unencrypted armored payload. -/
def framesC9 : List (List Nat) := framesOfBits (bytes_to_bits plainFullC9)

/-- Concrete 180-byte WAV carrier whose 160 data bytes all hold 3. -/
def wavC5 : List Nat := mkWav (List.replicate 160 3)

/-- Concrete embedded carrier for the C5 witness. -/
def stegoC5 : List Nat := (embed_audio wavC5 [2] "q" false false).toOption.getD []

theorem bytes_to_bits_append (a b : List Nat) :
    bytes_to_bits (a ++ b) = bytes_to_bits a ++ bytes_to_bits b := by
  induction a with
  | nil => rfl
  | cons x xs ih => simp [bytes_to_bits, ih]

theorem length_byteToBits (b : Nat) : (byteToBits b).length = 8 := by
  simp [byteToBits]

theorem length_bytes_to_bits (l : List Nat) :
    (bytes_to_bits l).length = 8 * l.length := by
  induction l with
  | nil => rfl
  | cons x xs ih => simp [bytes_to_bits, byteToBits, ih]; ring

theorem bits_to_bytes_nil : bits_to_bytes [] = [] := rfl

theorem bits_to_bytes_ne {l : List Bool} (h : l ≠ []) :
    bits_to_bytes l = byteOfBits (l.take 8) :: bits_to_bytes (l.drop 8) := by
  match l with
  | [] => exact absurd rfl h
  | [a] => rfl
  | [a, b] => rfl
  | [a, b, c] => rfl
  | [a, b, c, d] => rfl
  | [a, b, c, d, e] => rfl
  | [a, b, c, d, e, f] => rfl
  | [a, b, c, d, e, f, g] => rfl
  | a :: b :: c :: d :: e :: f :: g :: i :: rest => rfl

theorem bits_to_bytes_chunk {c : List Bool} (rest : List Bool) (h : c.length = 8) :
    bits_to_bytes (c ++ rest) = byteOfBits c :: bits_to_bytes rest := by
  have hne : c ++ rest ≠ [] := by
    cases c with
    | nil => simp at h
    | cons x xs => simp
  rw [bits_to_bytes_ne hne, ← h, List.take_left, List.drop_left]

theorem byteToBits_byteOfBits (c : List Bool) (h : c.length ≤ 8) :
    byteToBits (byteOfBits c) = c ++ List.replicate (8 - c.length) false := by
  match c with
  | [] => decide
  | [a] => revert a; decide
  | [a, b] => revert a b; decide
  | [a, b, c] => revert a b c; decide
  | [a, b, c, d] => revert a b c d; decide
  | [a, b, c, d, e] => revert a b c d e; decide
  | [a, b, c, d, e, f] => revert a b c d e f; decide
  | [a, b, c, d, e, f, g] => revert a b c d e f g; decide
  | [a, b, c, d, e, f, g, i] => revert a b c d e f g i; decide
  | a :: b :: c :: d :: e :: f :: g :: i :: j :: rest => simp at h

theorem byteOfBits_lt (c : List Bool) (h : c.length ≤ 8) : byteOfBits c < 256 := by
  match c with
  | [] => decide
  | [a] => revert a; decide
  | [a, b] => revert a b; decide
  | [a, b, c] => revert a b c; decide
  | [a, b, c, d] => revert a b c d; decide
  | [a, b, c, d, e] => revert a b c d e; decide
  | [a, b, c, d, e, f] => revert a b c d e f; decide
  | [a, b, c, d, e, f, g] => revert a b c d e f g; decide
  | [a, b, c, d, e, f, g, i] => revert a b c d e f g i; decide
  | a :: b :: c :: d :: e :: f :: g :: i :: j :: rest => simp at h

set_option maxRecDepth 4096 in
theorem byteOfBits_byteToBits {b : Nat} (h : b < 256) :
    byteOfBits (byteToBits b) = b := by
  have hall : ∀ x : Fin 256, byteOfBits (byteToBits x.val) = x.val := by decide
  exact hall ⟨b, h⟩

theorem isBytes_bits_to_bytes (l : List Bool) : isBytes (bits_to_bytes l) := by
  by_cases h : l = []
  · subst h; rw [bits_to_bytes_nil]; intro b hb; simp at hb
  · rw [bits_to_bytes_ne h]
    intro b hb
    rcases List.mem_cons.mp hb with hb | hb
    · subst hb; exact byteOfBits_lt _ (by simp)
    · exact isBytes_bits_to_bytes (l.drop 8) b hb
termination_by l.length
decreasing_by
  simp only [List.length_drop]
  have hp : 0 < l.length := List.length_pos.mpr h
  omega

theorem bits_to_bytes_bytes_to_bits {l : List Nat} (h : isBytes l) :
    bits_to_bytes (bytes_to_bits l) = l := by
  induction l with
  | nil => simp [bytes_to_bits, bits_to_bytes_nil]
  | cons x xs ih =>
    have hx : x < 256 := h x (by simp)
    have hxs : isBytes xs := fun b hb => h b (by simp [hb])
    show bits_to_bytes (byteToBits x ++ bytes_to_bits xs) = x :: xs
    rw [bits_to_bytes_chunk _ (length_byteToBits x), byteOfBits_byteToBits hx, ih hxs]

theorem length_bits_to_bytes (l : List Bool) :
    (bits_to_bytes l).length = (l.length + 7) / 8 := by
  by_cases h : l = []
  · subst h; rw [bits_to_bytes_nil]; rfl
  · rw [bits_to_bytes_ne h]
    have hp : 0 < l.length := List.length_pos.mpr h
    have ih := length_bits_to_bytes (l.drop 8)
    simp only [List.length_cons, ih, List.length_drop]
    omega
termination_by l.length
decreasing_by
  simp only [List.length_drop]
  have hp : 0 < l.length := List.length_pos.mpr h
  omega

theorem bytes_to_bits_bits_to_bytes (l : List Bool) :
    bytes_to_bits (bits_to_bytes l) =
      l ++ List.replicate (8 * (bits_to_bytes l).length - l.length) false := by
  by_cases h : l = []
  · subst h; rw [bits_to_bytes_nil]; rfl
  · rw [bits_to_bytes_ne h]
    have hp : 0 < l.length := List.length_pos.mpr h
    have ih := bytes_to_bits_bits_to_bytes (l.drop 8)
    show byteToBits (byteOfBits (l.take 8)) ++ bytes_to_bits (bits_to_bytes (l.drop 8)) = _
    rw [ih, byteToBits_byteOfBits _ (by simp)]
    by_cases h8 : l.length ≤ 8
    · have hd : l.drop 8 = [] := List.drop_eq_nil_of_le h8
      rw [hd, bits_to_bytes_nil]
      have ht : l.take 8 = l := List.take_of_length_le h8
      rw [ht]
      simp only [List.length_take, List.length_drop, List.length_nil,
        bits_to_bytes_nil, List.length_cons, List.append_nil, List.nil_append]
      rw [List.append_assoc]
      simp only [Nat.mul_zero, Nat.sub_zero, List.replicate_zero, List.append_nil,
        Nat.zero_add, Nat.mul_one]
    · push_neg at h8
      have hlt : (l.take 8).length = 8 := by simp; omega
      rw [hlt]
      simp only [Nat.sub_self, List.replicate_zero, List.append_nil]
      have hcount : 8 * (bits_to_bytes (List.drop 8 l)).length - (List.drop 8 l).length =
          8 * (byteOfBits (List.take 8 l) :: bits_to_bytes (List.drop 8 l)).length - l.length := by
        simp only [List.length_cons, List.length_drop]
        omega
      rw [← List.append_assoc, List.take_append_drop, hcount]
termination_by l.length
decreasing_by
  simp only [List.length_drop]
  have hp : 0 < l.length := List.length_pos.mpr h
  omega

theorem hamming_encode_nil : hamming_encode [] = [] := rfl

theorem hamming_decode_nil : hamming_decode [] = [] := rfl

theorem hamming_encode_ne {l : List Bool} (h : l ≠ []) :
    hamming_encode l = hammingEncodeBlock (l.take 4) ++ hamming_encode (l.drop 4) := by
  match l with
  | [] => exact absurd rfl h
  | [a] =>
    show hammingEncodeBlock [a] = hammingEncodeBlock [a] ++ []
    rw [List.append_nil]
  | [a, b] =>
    show hammingEncodeBlock [a, b] = hammingEncodeBlock [a, b] ++ []
    rw [List.append_nil]
  | [a, b, c] =>
    show hammingEncodeBlock [a, b, c] = hammingEncodeBlock [a, b, c] ++ []
    rw [List.append_nil]
  | a :: b :: c :: d :: rest => rfl

theorem hamming_decode_ne {l : List Bool} (h : l ≠ []) :
    hamming_decode l = hammingDecodeBlock (l.take 7) ++ hamming_decode (l.drop 7) := by
  match l with
  | [] => exact absurd rfl h
  | [a] =>
    show hammingDecodeBlock [a] = hammingDecodeBlock [a] ++ []
    rw [List.append_nil]
  | [a, b] =>
    show hammingDecodeBlock [a, b] = hammingDecodeBlock [a, b] ++ []
    rw [List.append_nil]
  | [a, b, c] =>
    show hammingDecodeBlock [a, b, c] = hammingDecodeBlock [a, b, c] ++ []
    rw [List.append_nil]
  | [a, b, c, d] =>
    show hammingDecodeBlock [a, b, c, d] = hammingDecodeBlock [a, b, c, d] ++ []
    rw [List.append_nil]
  | [a, b, c, d, e] =>
    show hammingDecodeBlock [a, b, c, d, e] = hammingDecodeBlock [a, b, c, d, e] ++ []
    rw [List.append_nil]
  | [a, b, c, d, e, f] =>
    show hammingDecodeBlock [a, b, c, d, e, f] = hammingDecodeBlock [a, b, c, d, e, f] ++ []
    rw [List.append_nil]
  | a :: b :: c :: d :: e :: f :: g :: rest => rfl

theorem hamming_encode_chunk {c : List Bool} (rest : List Bool) (h : c.length = 4) :
    hamming_encode (c ++ rest) = hammingEncodeBlock c ++ hamming_encode rest := by
  have hne : c ++ rest ≠ [] := by
    cases c with
    | nil => simp at h
    | cons x xs => simp
  rw [hamming_encode_ne hne, ← h, List.take_left, List.drop_left]

theorem hamming_decode_chunk {c : List Bool} (rest : List Bool) (h : c.length = 7) :
    hamming_decode (c ++ rest) = hammingDecodeBlock c ++ hamming_decode rest := by
  have hne : c ++ rest ≠ [] := by
    cases c with
    | nil => simp at h
    | cons x xs => simp
  rw [hamming_decode_ne hne, ← h, List.take_left, List.drop_left]

theorem length_hammingEncodeBlock (d : List Bool) :
    (hammingEncodeBlock d).length = 7 := rfl

theorem length_hamming_encode (l : List Bool) :
    (hamming_encode l).length = (l.length + 3) / 4 * 7 := by
  by_cases h : l = []
  · subst h; rw [hamming_encode_nil]; rfl
  · rw [hamming_encode_ne h]
    have hp : 0 < l.length := List.length_pos.mpr h
    have ih := length_hamming_encode (l.drop 4)
    simp only [List.length_append, length_hammingEncodeBlock, ih, List.length_drop]
    omega
termination_by l.length
decreasing_by
  simp only [List.length_drop]
  have hp : 0 < l.length := List.length_pos.mpr h
  omega

theorem hammingDecodeBlock_encodeBlock (a b c d : Bool) :
    hammingDecodeBlock (hammingEncodeBlock [a, b, c, d]) = [a, b, c, d] := by
  revert a b c d; decide

theorem hamming_decode_encode {l : List Bool} (h : l.length % 4 = 0) :
    hamming_decode (hamming_encode l) = l := by
  by_cases hn : l = []
  · subst hn; rw [hamming_encode_nil, hamming_decode_nil]
  · have hp : 0 < l.length := List.length_pos.mpr hn
    have h4 : 4 ≤ l.length := by omega
    have ht : (l.take 4).length = 4 := by simp; omega
    have hd : (l.drop 4).length % 4 = 0 := by simp; omega
    have ih := hamming_decode_encode hd
    conv_lhs => rw [← List.take_append_drop 4 l]
    rw [hamming_encode_chunk _ ht,
        hamming_decode_chunk _ (length_hammingEncodeBlock _), ih]
    have hblock : hammingDecodeBlock (hammingEncodeBlock (l.take 4)) = l.take 4 := by
      match l.take 4, ht with
      | [a, b, c, d], _ => exact hammingDecodeBlock_encodeBlock a b c d
    rw [hblock, List.take_append_drop]
termination_by l.length
decreasing_by
  simp only [List.length_drop]
  omega

theorem getD_map_range {α : Type} (f : Nat → α) (n i : Nat) (d : α) (h : i < n) :
    ((List.range n).map f).getD i d = f i := by
  rw [List.getD_eq_getElem _ _ (by simpa using h)]
  simp

theorem length_encrypt_ctr (key pt : List Nat) :
    (encrypt_ctr key pt).length = pt.length := by
  simp [encrypt_ctr]

theorem keystream_lt (key : List Nat) (i : Nat) : keystream key i < 256 :=
  Nat.mod_lt _ (by norm_num)

theorem decrypt_ctr_encrypt_ctr (key pt : List Nat) :
    decrypt_ctr key (encrypt_ctr key pt) = pt := by
  apply List.ext_getElem
  · simp [decrypt_ctr, encrypt_ctr]
  · intro i h1 h2
    simp only [decrypt_ctr, encrypt_ctr, length_encrypt_ctr, List.getElem_map,
      List.getElem_range]
    rw [List.getD_eq_getElem _ _ (by simpa [encrypt_ctr] using h2)]
    simp only [encrypt_ctr, List.getElem_map, List.getElem_range]
    rw [Nat.xor_assoc, Nat.xor_self, Nat.xor_zero, List.getD_eq_getElem _ _ h2]

theorem isBytes_encrypt_ctr {pt : List Nat} (key : List Nat) (h : isBytes pt) :
    isBytes (encrypt_ctr key pt) := by
  intro b hb
  simp only [encrypt_ctr, List.mem_map, List.mem_range] at hb
  obtain ⟨i, hi, rfl⟩ := hb
  have h1 : pt.getD i 0 < 256 := by
    rw [List.getD_eq_getElem _ _ hi]
    exact h _ (List.getElem_mem hi)
  have h2 : keystream key i < 256 := keystream_lt key i
  have hx : pt.getD i 0 < 2 ^ 8 := by simpa using h1
  have hy : keystream key i < 2 ^ 8 := by simpa using h2
  have := Nat.xor_lt_two_pow hx hy
  simpa using this

theorem readN_congr {bs bs' : List Nat} {p n : Nat}
    (h : ∀ i, i < n → bs'.getD (p + i) 0 = bs.getD (p + i) 0) :
    readN bs' p n = readN bs p n := by
  unfold readN
  apply List.map_congr_left
  intro i hi
  exact h i (List.mem_range.mp hi)

theorem readLE_congr {bs bs' : List Nat} {p n : Nat}
    (h : ∀ i, i < n → bs'.getD (p + i) 0 = bs.getD (p + i) 0) :
    readLE bs' p n = readLE bs p n := by
  unfold readLE
  rw [readN_congr h]

theorem findData_le {bs : List Nat} :
    ∀ (fuel p : Nat) (sw : Option Nat) {off size sw'},
    findData bs p sw fuel = some (off, size, sw') →
    p + 8 ≤ off ∧ off + size ≤ bs.length := by
  intro fuel
  induction fuel with
  | zero =>
    intro p sw off size sw' h
    exact Option.noConfusion h
  | succ n ih =>
    intro p sw off size sw' h
    rw [findData] at h
    by_cases h1 : p + 8 ≤ bs.length
    · rw [if_pos h1] at h
      by_cases h2 : readN bs p 4 = dataId
      · rw [if_pos h2] at h
        by_cases h3 : p + 8 + readLE bs (p + 4) 4 ≤ bs.length
        · rw [if_pos h3] at h
          rcases Option.some.inj h with ⟨rfl, rfl, rfl⟩
          omega
        · rw [if_neg h3] at h
          exact Option.noConfusion h
      · rw [if_neg h2] at h
        obtain ⟨hle, hcap⟩ := ih _ _ h
        omega
    · rw [if_neg h1] at h
      exact Option.noConfusion h

theorem findData_congr {bs bs' : List Nat} (hlen : bs'.length = bs.length) :
    ∀ (fuel p : Nat) (sw : Option Nat) {off size sw'},
    findData bs p sw fuel = some (off, size, sw') →
    (∀ i, i < off → bs'.getD i 0 = bs.getD i 0) →
    findData bs' p sw fuel = some (off, size, sw') := by
  intro fuel
  induction fuel with
  | zero =>
    intro p sw off size sw' h hagree
    exact Option.noConfusion h
  | succ n ih =>
    intro p sw off size sw' h hagree
    rw [findData] at h
    rw [findData, hlen]
    by_cases h1 : p + 8 ≤ bs.length
    · rw [if_pos h1] at h
      rw [if_pos h1]
      by_cases h2 : readN bs p 4 = dataId
      · rw [if_pos h2] at h
        by_cases h3 : p + 8 + readLE bs (p + 4) 4 ≤ bs.length
        · rw [if_pos h3] at h
          rcases Option.some.inj h with ⟨rfl, rfl, rfl⟩
          have hrn : readN bs' p 4 = readN bs p 4 :=
            readN_congr (fun i hi => hagree (p + i) (by omega))
          have hrl : readLE bs' (p + 4) 4 = readLE bs (p + 4) 4 :=
            readLE_congr (fun i hi => hagree (p + 4 + i) (by omega))
          rw [hrn, hrl, if_pos h2, if_pos h3]
        · rw [if_neg h3] at h
          exact Option.noConfusion h
      · rw [if_neg h2] at h
        obtain ⟨hle, hcap⟩ := findData_le _ _ _ h
        have hrn : readN bs' p 4 = readN bs p 4 :=
          readN_congr (fun i hi => hagree (p + i) (by omega))
        have hrl : readLE bs' (p + 4) 4 = readLE bs (p + 4) 4 :=
          readLE_congr (fun i hi => hagree (p + 4 + i) (by omega))
        rw [hrn, hrl, if_neg h2]
        by_cases hc : readN bs p 4 = fmtId ∧ 16 ≤ readLE bs (p + 4) 4 ∧ p + 24 ≤ bs.length
        · obtain ⟨hf, h16, h24⟩ := hc
          have hfm : readLE bs' (p + 22) 2 = readLE bs (p + 22) 2 :=
            readLE_congr (fun i hi => hagree (p + 22 + i) (by omega))
          rw [if_pos ⟨hf, h16, h24⟩] at h ⊢
          rw [hfm]
          exact ih _ _ h hagree
        · rw [if_neg hc] at h ⊢
          exact ih _ _ h hagree
    · rw [if_neg h1] at h
      exact Option.noConfusion h

theorem parse_wav_le {bs : List Nat} {off size sw : Nat}
    (h : parse_wav bs = some (off, size, sw)) :
    20 ≤ off ∧ off + size ≤ bs.length := by
  unfold parse_wav at h
  split_ifs at h with h1
  obtain ⟨hle, hcap⟩ := findData_le _ _ _ h
  omega

theorem parse_wav_congr {bs bs' : List Nat} (hlen : bs'.length = bs.length)
    {off size sw : Nat} (h : parse_wav bs = some (off, size, sw))
    (hagree : ∀ i, i < off → bs'.getD i 0 = bs.getD i 0) :
    parse_wav bs' = some (off, size, sw) := by
  have hoff : 20 ≤ off := (parse_wav_le h).1
  unfold parse_wav at h
  split_ifs at h with h1
  obtain ⟨hriff, hwave⟩ := h1
  have hr : readN bs' 0 4 = readN bs 0 4 :=
    readN_congr (fun i hi => hagree (0 + i) (by omega))
  have hw : readN bs' 8 4 = readN bs 8 4 :=
    readN_congr (fun i hi => hagree (8 + i) (by omega))
  unfold parse_wav
  rw [if_pos ⟨hr.trans hriff, hw.trans hwave⟩, hlen]
  exact findData_congr hlen _ _ _ h hagree

theorem embed_audio_eq_some {wav : List Nat} {off size sw : Nat}
    (payload : List Nat) (pw : String) (e ecc : Bool)
    (hp : parse_wav wav = some (off, size, sw)) :
    embed_audio wav payload pw e ecc =
      if e ∧ pw = "" then .error "Password required when encryption=True"
      else if 4294967296 ≤ (audioEncrypted payload pw e).length then .error "OverflowError"
      else if size / 2 < audioTotalBits payload pw e ecc then
        .error "Not enough capacity in carrier audio"
      else .ok (writeBits wav off (audioFull payload pw e ecc)
        (audioTotalBits payload pw e ecc)) := by
  unfold embed_audio audioTotalBits audioFull audioBodyBits audioHeader audioEncrypted
  rw [hp]

theorem embed_audio_ok {wav payload : List Nat} {pw : String} {e ecc : Bool}
    {out : List Nat} (h : embed_audio wav payload pw e ecc = .ok out) :
    ∃ off size sw, parse_wav wav = some (off, size, sw) ∧
      ¬(e = true ∧ pw = "") ∧
      (audioEncrypted payload pw e).length < 4294967296 ∧
      audioTotalBits payload pw e ecc ≤ size / 2 ∧
      out = writeBits wav off (audioFull payload pw e ecc) (audioTotalBits payload pw e ecc) := by
  rcases hp : parse_wav wav with _ | ⟨off, size, sw⟩
  · unfold embed_audio at h
    rw [hp] at h
    exact Except.noConfusion h
  · rw [embed_audio_eq_some payload pw e ecc hp] at h
    by_cases h1 : e = true ∧ pw = ""
    · rw [if_pos h1] at h; exact Except.noConfusion h
    · rw [if_neg h1] at h
      by_cases h2 : 4294967296 ≤ (audioEncrypted payload pw e).length
      · rw [if_pos h2] at h; exact Except.noConfusion h
      · rw [if_neg h2] at h
        by_cases h3 : size / 2 < audioTotalBits payload pw e ecc
        · rw [if_pos h3] at h; exact Except.noConfusion h
        · rw [if_neg h3] at h
          refine ⟨off, size, sw, rfl, h1, by omega, by omega, ?_⟩
          exact (Except.ok.inj h).symm

theorem getD_set_ne (l : List Nat) {i j : Nat} (h : i ≠ j) (a d : Nat) :
    (l.set i a).getD j d = l.getD j d := by
  rw [List.getD_eq_getD_get?, List.getD_eq_getD_get?, List.get?_eq_getElem?,
      List.get?_eq_getElem?, List.getElem?_set_ne h]

theorem getD_set_self (l : List Nat) {i : Nat} (h : i < l.length) (a d : Nat) :
    (l.set i a).getD i d = a := by
  rw [List.getD_eq_getD_get?, List.get?_eq_getElem?, List.getElem?_set_self h]
  rfl

theorem length_writeBits (wav : List Nat) (off : Nat) (full : List Nat) (n : Nat) :
    (writeBits wav off full n).length = wav.length := by
  induction n with
  | zero => rfl
  | succ m ih => simp [writeBits, List.length_set, ih]

theorem writeBits_getD_untouched (wav : List Nat) (off : Nat) (full : List Nat) (n j : Nat)
    (h : ∀ i, i < n → j ≠ off + i * 2) :
    (writeBits wav off full n).getD j 0 = wav.getD j 0 := by
  induction n with
  | zero => rfl
  | succ m ih =>
    show ((writeBits wav off full m).set (off + m * 2)
      ((writeBits wav off full m).getD (off + m * 2) 0 &&& 0xFE ||| bitAt full m)).getD j 0 = _
    rw [getD_set_ne _ (fun he => h m (by omega) he.symm) _ _]
    exact ih (fun i hi => h i (by omega))

theorem writeBits_getD_written (wav : List Nat) (off : Nat) (full : List Nat) {n k : Nat}
    (hk : k < n) (hrange : off + k * 2 < wav.length) :
    (writeBits wav off full n).getD (off + k * 2) 0 =
      ((wav.getD (off + k * 2) 0 &&& 0xFE) ||| bitAt full k) := by
  induction n with
  | zero => omega
  | succ m ih =>
    show ((writeBits wav off full m).set (off + m * 2)
      ((writeBits wav off full m).getD (off + m * 2) 0 &&& 0xFE ||| bitAt full m)).getD
        (off + k * 2) 0 = _
    by_cases hkm : k = m
    · subst hkm
      rw [getD_set_self _ (by rw [length_writeBits]; exact hrange) _ _]
      rw [writeBits_getD_untouched wav off full k (off + k * 2) (fun i hi => by omega)]
    · have hne : off + m * 2 ≠ off + k * 2 := by omega
      rw [getD_set_ne _ hne _ _]
      exact ih (by omega)

theorem and_one_eq_toNat_testBit (x j : Nat) : (x >>> j) &&& 1 = (x.testBit j).toNat := by
  rw [Nat.and_one_is_mod, Nat.testBit_to_div_mod, Nat.shiftRight_eq_div_pow]
  rcases Nat.mod_two_eq_zero_or_one (x / 2 ^ j) with h | h <;> simp [h]

theorem bitAt_le_one (full : List Nat) (k : Nat) : bitAt full k ≤ 1 :=
  Nat.and_le_right

theorem getD_bytes_to_bits {full : List Nat} {k : Nat} (hk : k < 8 * full.length) :
    (bytes_to_bits full).getD k false = (full.getD (k / 8) 0).testBit (7 - k % 8) := by
  induction full generalizing k with
  | nil => simp at hk
  | cons x xs ih =>
    show (byteToBits x ++ bytes_to_bits xs).getD k false = _
    by_cases h8 : k < 8
    · rw [List.getD_append _ _ _ _ (by rw [length_byteToBits]; exact h8)]
      have hk8 : k / 8 = 0 := by omega
      have hm : k % 8 = k := by omega
      rw [hk8, hm]
      interval_cases k <;> simp [byteToBits]
    · push_neg at h8
      rw [List.getD_append_right _ _ _ _ (by rw [length_byteToBits]; exact h8),
          length_byteToBits]
      have hlt : k - 8 < 8 * xs.length := by
        simp only [List.length_cons] at hk; omega
      rw [ih hlt]
      have h1 : (k - 8) / 8 = k / 8 - 1 := by omega
      have h2 : (k - 8) % 8 = k % 8 := by omega
      rw [h1, h2]
      have h3 : k / 8 = (k / 8 - 1) + 1 := by omega
      rw [h3, List.getD_cons_succ, Nat.add_sub_cancel]

theorem bitAt_eq {full : List Nat} {k : Nat} (hk : k < 8 * full.length) :
    bitAt full k = ((bytes_to_bits full).getD k false).toNat := by
  unfold bitAt
  rw [and_one_eq_toNat_testBit, getD_bytes_to_bits hk]

theorem testBit_write_zero (x b : Nat) (hb : b ≤ 1) :
    ((x &&& 0xFE) ||| b).testBit 0 = decide (b = 1) := by
  rw [Nat.testBit_or, Nat.testBit_and]
  have h254 : (0xFE : Nat).testBit 0 = false := by decide
  rw [h254, Bool.and_false, Bool.false_or]
  interval_cases b <;> decide

theorem testBit_write_succ (x b j : Nat) (hb : b ≤ 1) (hj : 1 ≤ j) (hx : x < 256) :
    ((x &&& 0xFE) ||| b).testBit j = x.testBit j := by
  rw [Nat.testBit_or, Nat.testBit_and]
  have hbj : b.testBit j = false := by
    apply Nat.testBit_lt_two_pow
    calc b < 2 ^ 1 := by omega
    _ ≤ 2 ^ j := Nat.pow_le_pow_right (by omega) hj
  by_cases h8 : j < 8
  · have h254 : (0xFE : Nat).testBit j = true := by interval_cases j <;> decide
    rw [h254, Bool.and_true, hbj, Bool.or_false]
  · have hxj : x.testBit j = false := by
      apply Nat.testBit_lt_two_pow
      calc x < 2 ^ 8 := hx
      _ ≤ 2 ^ j := Nat.pow_le_pow_right (by omega) (by omega)
    have h254 : (0xFE : Nat).testBit j = false := by
      apply Nat.testBit_lt_two_pow
      calc (0xFE : Nat) < 2 ^ 8 := by norm_num
      _ ≤ 2 ^ j := Nat.pow_le_pow_right (by omega) (by omega)
    rw [h254, Bool.and_false, hbj, Bool.or_false, hxj]

theorem lsbAt_writeBits {wav full : List Nat} {off total k : Nat}
    (hk : k < total) (htot : total ≤ 8 * full.length)
    (hrange : off + k * 2 < wav.length) :
    lsbAt (writeBits wav off full total) off k = (bytes_to_bits full).getD k false := by
  unfold lsbAt
  rw [writeBits_getD_written wav off full hk hrange,
      testBit_write_zero _ _ (bitAt_le_one full k), bitAt_eq (by omega)]
  cases hbit : (bytes_to_bits full).getD k false <;> simp

theorem map_range_getD_slice (L : List Bool) (start count : Nat)
    (h : start + count ≤ L.length) :
    (List.range count).map (fun i => L.getD (start + i) false) =
      (L.drop start).take count := by
  apply List.ext_getElem
  · simp only [List.length_map, List.length_range, List.length_take, List.length_drop]
    omega
  · intro i h1 h2
    simp only [List.length_map, List.length_range] at h1
    simp only [List.getElem_map, List.getElem_range]
    rw [List.getElem_take, List.getElem_drop,
        List.getD_eq_getElem _ _ (by omega)]

theorem lsbSlice_writeBits {wav full : List Nat} {off total start count : Nat}
    (htot : total = 8 * full.length) (hsc : start + count ≤ total)
    (hrange : ∀ k, k < total → off + k * 2 < wav.length) :
    lsbSlice (writeBits wav off full total) off start count =
      ((bytes_to_bits full).drop start).take count := by
  unfold lsbSlice
  have heq : ∀ i ∈ List.range count,
      lsbAt (writeBits wav off full total) off (start + i) =
        (bytes_to_bits full).getD (start + i) false := by
    intro i hi
    have hic : i < count := List.mem_range.mp hi
    exact lsbAt_writeBits (by omega) (by omega) (hrange _ (by omega))
  rw [List.map_congr_left heq,
      map_range_getD_slice _ _ _ (by rw [length_bytes_to_bits]; omega)]

theorem exceptBind_ok {α β : Type} (x : α) (f : α → Except String β) :
    (Except.ok x : Except String α).bind f = f x := rfl

theorem read_bits_ok {wav : List Nat} {off ts count start : Nat}
    (h : start + count ≤ ts) :
    read_bits wav off ts count start = .ok (lsbSlice wav off start count) := by
  unfold read_bits
  rw [if_neg (by omega)]

theorem bytes_to_bits_drop (bs : List Nat) (k : Nat) :
    (bytes_to_bits bs).drop (8 * k) = bytes_to_bits (bs.drop k) := by
  induction bs generalizing k with
  | nil => simp [bytes_to_bits]
  | cons x xs ih =>
    cases k with
    | zero => simp
    | succ m =>
      show (byteToBits x ++ bytes_to_bits xs).drop (8 * (m + 1)) = bytes_to_bits (xs.drop m)
      have h8 : 8 * (m + 1) = (byteToBits x).length + 8 * m := by
        rw [length_byteToBits]; ring
      rw [h8, List.drop_append, ih]

theorem bytes_to_bits_take (bs : List Nat) (k : Nat) :
    (bytes_to_bits bs).take (8 * k) = bytes_to_bits (bs.take k) := by
  induction bs generalizing k with
  | nil => simp [bytes_to_bits]
  | cons x xs ih =>
    cases k with
    | zero => simp [bytes_to_bits]
    | succ m =>
      show (byteToBits x ++ bytes_to_bits xs).take (8 * (m + 1)) =
        bytes_to_bits (x :: xs.take m)
      have h8 : 8 * (m + 1) = (byteToBits x).length + 8 * m := by
        rw [length_byteToBits]; ring
      rw [h8, List.take_append, ih]
      rfl

theorem bytes_to_bits_drop' (bs : List Nat) {n k : Nat} (h : n = 8 * k) :
    (bytes_to_bits bs).drop n = bytes_to_bits (bs.drop k) :=
  h ▸ bytes_to_bits_drop bs k

theorem bytes_to_bits_take' (bs : List Nat) {n k : Nat} (h : n = 8 * k) :
    (bytes_to_bits bs).take n = bytes_to_bits (bs.take k) :=
  h ▸ bytes_to_bits_take bs k

theorem length_toBytesBE (k n : Nat) : (toBytesBE k n).length = k := by
  induction k generalizing n with
  | zero => rfl
  | succ m ih => simp [toBytesBE, ih]

theorem isBytes_toBytesBE (k n : Nat) : isBytes (toBytesBE k n) := by
  induction k generalizing n with
  | zero => intro b hb; simp [toBytesBE] at hb
  | succ m ih =>
    intro b hb
    simp only [toBytesBE, List.mem_append, List.mem_singleton] at hb
    rcases hb with hb | hb
    · exact ih _ b hb
    · subst hb; exact Nat.mod_lt _ (by norm_num)

theorem fromBytesBE_toBytesBE (k n : Nat) (h : n < 256 ^ k) :
    fromBytesBE (toBytesBE k n) = n := by
  induction k generalizing n with
  | zero =>
    have : n = 0 := by simpa using h
    subst this; rfl
  | succ m ih =>
    show fromBytesBE (toBytesBE m (n / 256) ++ [n % 256]) = n
    unfold fromBytesBE
    rw [List.foldl_append]
    have hdiv : n / 256 < 256 ^ m := by
      rw [Nat.div_lt_iff_lt_mul (by norm_num)]
      calc n < 256 ^ (m + 1) := h
      _ = 256 ^ m * 256 := by ring
    have hm := ih (n / 256) hdiv
    unfold fromBytesBE at hm
    rw [hm]
    show n / 256 * 256 + n % 256 = n
    omega

theorem isBytes_append {a b : List Nat} (ha : isBytes a) (hb : isBytes b) :
    isBytes (a ++ b) := by
  intro x hx
  rcases List.mem_append.mp hx with h | h
  · exact ha x h
  · exact hb x h

theorem isBytes_audioFull (p : List Nat) (pw : String) (e ecc : Bool) :
    isBytes (audioFull p pw e ecc) := by
  unfold audioFull audioHeader
  apply isBytes_append
  · apply isBytes_append
    · apply isBytes_append
      · decide
      · cases ecc <;> decide
    · exact isBytes_toBytesBE 4 _
  · exact isBytes_bits_to_bytes _

theorem length_audioHeader (p : List Nat) (pw : String) (e ecc : Bool) :
    (audioHeader p pw e ecc).length = 9 := by
  simp [audioHeader, MAGIC, length_toBytesBE]

theorem audioFull_take4 (p : List Nat) (pw : String) (e ecc : Bool) :
    (audioFull p pw e ecc).take 4 = MAGIC := by
  unfold audioFull audioHeader
  rw [List.append_assoc, List.append_assoc]
  exact List.take_left' (by decide)

theorem audioFull_drop4 (p : List Nat) (pw : String) (e ecc : Bool) :
    (audioFull p pw e ecc).drop 4 =
      [if ecc then 1 else 0] ++ (toBytesBE 4 (audioEncrypted p pw e).length ++
        bits_to_bytes (audioBodyBits p pw e ecc)) := by
  unfold audioFull audioHeader
  rw [List.append_assoc, List.append_assoc]
  exact List.drop_left' (by decide)

theorem audioFull_drop5 (p : List Nat) (pw : String) (e ecc : Bool) :
    (audioFull p pw e ecc).drop 5 =
      toBytesBE 4 (audioEncrypted p pw e).length ++
        bits_to_bytes (audioBodyBits p pw e ecc) := by
  unfold audioFull audioHeader
  rw [List.append_assoc]
  exact List.drop_left' (by cases ecc <;> simp [MAGIC])

theorem audioFull_drop9 (p : List Nat) (pw : String) (e ecc : Bool) :
    (audioFull p pw e ecc).drop 9 = bits_to_bytes (audioBodyBits p pw e ecc) := by
  unfold audioFull
  exact List.drop_left' (length_audioHeader p pw e ecc)

theorem length_audioBodyBits (p : List Nat) (pw : String) (e ecc : Bool) :
    (audioBodyBits p pw e ecc).length = body_bits_of ecc (audioEncrypted p pw e).length := by
  unfold audioBodyBits body_bits_of
  cases ecc
  · simp [length_bytes_to_bits]; ring
  · simp only [if_true]
    rw [length_hamming_encode, length_bytes_to_bits]
    omega

theorem extract_audio_eq_some {wav : List Nat} {off size sw : Nat} (pw : String) (e : Bool)
    (hp : parse_wav wav = some (off, size, sw)) :
    extract_audio wav pw e =
      if e ∧ pw = "" then .error "Password required when encryption=True"
      else
        (read_bits wav off (size / 2) 32 0).bind (fun wav_bits =>
          if (bits_to_bytes wav_bits).take 4 = MAGIC then
            (read_bits wav off (size / 2) 8 32).bind (fun flag_bits =>
              (read_bits wav off (size / 2) 32 40).bind (fun len_bits =>
                (read_bits wav off (size / 2)
                    (body_bits_of ((bits_to_bytes flag_bits).getD 0 0 &&& 1 == 1)
                      (fromBytesBE ((bits_to_bytes len_bits).take 4))) 72).bind (fun raw_bits =>
                  .ok (if e then
                        decrypt_ctr (derive_key pw)
                          ((bits_to_bytes (if (bits_to_bytes flag_bits).getD 0 0 &&& 1 == 1
                              then hamming_decode raw_bits else raw_bits)).take
                            (fromBytesBE ((bits_to_bytes len_bits).take 4)))
                      else
                        (bits_to_bytes (if (bits_to_bytes flag_bits).getD 0 0 &&& 1 == 1
                            then hamming_decode raw_bits else raw_bits)).take
                          (fromBytesBE ((bits_to_bytes len_bits).take 4))))))
          else .error "No payload found") := by
  unfold extract_audio
  rw [hp]

theorem extract_of_embed {wav payload stego : List Nat} {pw : String} {e ecc : Bool}
    (hpay : isBytes payload) (h : embed_audio wav payload pw e ecc = .ok stego) :
    extract_audio stego pw e = .ok payload := by
  obtain ⟨off, size, sw, hp, h1, h2, h3, hout⟩ := embed_audio_ok h
  have hENCbytes : isBytes (audioEncrypted payload pw e) := by
    unfold audioEncrypted
    cases e
    · exact hpay
    · exact isBytes_encrypt_ctr _ hpay
  have hBlen := length_audioBodyBits payload pw e ecc
  have hFlen : (audioFull payload pw e ecc).length =
      9 + (bits_to_bytes (audioBodyBits payload pw e ecc)).length := by
    unfold audioFull
    rw [List.length_append, length_audioHeader]
  have hBB : (bits_to_bytes (audioBodyBits payload pw e ecc)).length =
      ((audioBodyBits payload pw e ecc).length + 7) / 8 := length_bits_to_bytes _
  have hT : audioTotalBits payload pw e ecc = (audioFull payload pw e ecc).length * 8 := rfl
  have hT72 : 72 ≤ audioTotalBits payload pw e ecc := by
    rw [hT, hFlen]; omega
  have hTbody : 72 + body_bits_of ecc (audioEncrypted payload pw e).length ≤
      audioTotalBits payload pw e ecc := by
    rw [← hBlen, hT, hFlen, hBB]; omega
  have hcap : audioTotalBits payload pw e ecc ≤ size / 2 := h3
  have hwavlen : off + size ≤ wav.length := (parse_wav_le hp).2
  have hrange : ∀ k, k < audioTotalBits payload pw e ecc → off + k * 2 < wav.length := by
    intro k hk
    omega
  have hlen_st : stego.length = wav.length := by
    rw [hout]; exact length_writeBits _ _ _ _
  have hagree : ∀ i, i < off → stego.getD i 0 = wav.getD i 0 := by
    intro i hi
    rw [hout]
    exact writeBits_getD_untouched _ _ _ _ _ (fun k hk => by omega)
  have hps : parse_wav stego = some (off, size, sw) := parse_wav_congr hlen_st hp hagree
  have hslice : ∀ start count, start + count ≤ audioTotalBits payload pw e ecc →
      lsbSlice stego off start count =
        ((bytes_to_bits (audioFull payload pw e ecc)).drop start).take count := by
    intro start count hsc
    rw [hout]
    exact lsbSlice_writeBits (by rw [hT]; ring) hsc hrange
  have hs0 : lsbSlice stego off 0 32 = bytes_to_bits MAGIC := by
    rw [hslice 0 32 (by omega), List.drop_zero,
        bytes_to_bits_take' _ (show (32 : Nat) = 8 * 4 from rfl), audioFull_take4]
  have hs32 : lsbSlice stego off 32 8 = bytes_to_bits [if ecc then (1 : Nat) else 0] := by
    rw [hslice 32 8 (by omega), bytes_to_bits_drop' _ (show (32 : Nat) = 8 * 4 from rfl),
        bytes_to_bits_take' _ (show (8 : Nat) = 8 * 1 from rfl), audioFull_drop4]
    congr 1
  have hs40 : lsbSlice stego off 40 32 =
      bytes_to_bits (toBytesBE 4 (audioEncrypted payload pw e).length) := by
    rw [hslice 40 32 (by omega), bytes_to_bits_drop' _ (show (40 : Nat) = 8 * 5 from rfl),
        bytes_to_bits_take' _ (show (32 : Nat) = 8 * 4 from rfl), audioFull_drop5]
    congr 1
  have hflag : ((bits_to_bytes (bytes_to_bits [if ecc then (1 : Nat) else 0])).getD 0 0
      &&& 1 == 1) = ecc := by
    cases ecc <;> decide
  have hlen4 : fromBytesBE ((bits_to_bytes (bytes_to_bits
      (toBytesBE 4 (audioEncrypted payload pw e).length))).take 4) =
      (audioEncrypted payload pw e).length := by
    rw [bits_to_bytes_bytes_to_bits (isBytes_toBytesBE 4 _),
        List.take_of_length_le (by rw [length_toBytesBE])]
    apply fromBytesBE_toBytesBE
    have h256 : (256 : Nat) ^ 4 = 4294967296 := by norm_num
    rw [h256]
    exact h2
  have hs72 : lsbSlice stego off 72 (body_bits_of ecc (audioEncrypted payload pw e).length) =
      audioBodyBits payload pw e ecc := by
    rw [hslice 72 _ hTbody, bytes_to_bits_drop' _ (show (72 : Nat) = 8 * 9 from rfl),
        audioFull_drop9, bytes_to_bits_bits_to_bytes]
    exact List.take_left' hBlen
  rw [extract_audio_eq_some pw e hps, if_neg h1]
  simp only [read_bits_ok (show (0 : Nat) + 32 ≤ size / 2 by omega), hs0, exceptBind_ok]
  rw [if_pos (show (bits_to_bytes (bytes_to_bits MAGIC)).take 4 = MAGIC by decide)]
  simp only [read_bits_ok (show (32 : Nat) + 8 ≤ size / 2 by omega), hs32, exceptBind_ok]
  simp only [read_bits_ok (show (40 : Nat) + 32 ≤ size / 2 by omega), hs40, exceptBind_ok]
  simp only [hflag, hlen4]
  simp only [read_bits_ok (show (72 : Nat) +
      body_bits_of ecc (audioEncrypted payload pw e).length ≤ size / 2 by omega),
    hs72, exceptBind_ok]
  have hdec : (if ecc then hamming_decode (audioBodyBits payload pw e ecc)
      else audioBodyBits payload pw e ecc) = bytes_to_bits (audioEncrypted payload pw e) := by
    unfold audioBodyBits
    cases ecc
    · simp
    · simp only [if_true]
      exact hamming_decode_encode (by rw [length_bytes_to_bits]; omega)
  rw [hdec, bits_to_bytes_bytes_to_bits hENCbytes, List.take_length]
  cases e
  · simp [audioEncrypted]
  · simp [audioEncrypted, decrypt_ctr_encrypt_ctr]

theorem lsb_write (v : Nat) (b : Bool) :
    ((v &&& 0xFE) ||| b.toNat).testBit 0 = b := by
  rw [testBit_write_zero _ _ (by cases b <;> simp)]
  cases b <;> decide

theorem embedFrameBits_snd (f : List Nat) (bs : List Bool) :
    (embedFrameBits f bs).2 = bs.drop f.length := by
  induction f generalizing bs with
  | nil => cases bs <;> rfl
  | cons v f ih =>
    cases bs with
    | nil => simp [embedFrameBits]
    | cons b bs => exact ih bs

theorem map_lsb_embedFrameBits (f : List Nat) (bs : List Bool) :
    (embedFrameBits f bs).1.map (fun v => v.testBit 0) =
      bs.take f.length ++ (f.map (fun v => v.testBit 0)).drop bs.length := by
  induction f generalizing bs with
  | nil =>
    cases bs with
    | nil => rfl
    | cons b bs => simp [embedFrameBits]
  | cons v f ih =>
    cases bs with
    | nil => simp [embedFrameBits]
    | cons b bs =>
      show ((v &&& 0xFE ||| b.toNat) :: (embedFrameBits f bs).1).map _ = _
      simp only [List.map_cons, lsb_write, ih]
      rfl

theorem embedFrames_snd (frames : List (List Nat)) (bs : List Bool) :
    (embedFrames frames bs).2 = bs.drop (concatBytes frames).length := by
  induction frames generalizing bs with
  | nil => rfl
  | cons f fs ih =>
    show (embedFrames fs (embedFrameBits f bs).2).2 = _
    rw [ih, embedFrameBits_snd, List.drop_drop]
    have hc : concatBytes (f :: fs) = f ++ concatBytes fs := rfl
    rw [hc, List.length_append]

theorem lsbStream_cons (f : List Nat) (fs : List (List Nat)) :
    lsbStream (f :: fs) = f.map (fun v => v.testBit 0) ++ lsbStream fs := by
  show ((f ++ concatBytes fs).map _) = _
  rw [List.map_append]
  rfl

theorem lsbStream_embedFrames {frames : List (List Nat)} {bs : List Bool}
    (h : bs.length ≤ (concatBytes frames).length) :
    lsbStream (embedFrames frames bs).1 = bs ++ (lsbStream frames).drop bs.length := by
  induction frames generalizing bs with
  | nil =>
    have hb : bs = [] := by
      have : (concatBytes ([] : List (List Nat))).length = 0 := rfl
      rw [this] at h
      exact List.eq_nil_of_length_eq_zero (by omega)
    subst hb
    rfl
  | cons f fs ih =>
    show lsbStream ((embedFrameBits f bs).1 :: (embedFrames fs (embedFrameBits f bs).2).1) = _
    rw [lsbStream_cons, map_lsb_embedFrameBits, embedFrameBits_snd]
    have hcc : (concatBytes (f :: fs)).length = f.length + (concatBytes fs).length := by
      show (f ++ concatBytes fs).length = _
      rw [List.length_append]
    by_cases hb : bs.length ≤ f.length
    · rw [List.drop_eq_nil_of_le hb]
      have h2 := @ih [] (Nat.zero_le _)
      simp only [List.length_nil, List.drop_zero, List.nil_append] at h2
      rw [h2, List.take_of_length_le hb, lsbStream_cons,
          List.drop_append_of_le_length (by simpa using hb)]
      rw [List.append_assoc]
    · push_neg at hb
      have h1 : (f.map (fun v => v.testBit 0)).drop bs.length = [] :=
        List.drop_eq_nil_of_le (by simp; omega)
      have h3 : (bs.drop f.length).length = bs.length - f.length := by simp
      have h2 := @ih (bs.drop f.length) (by rw [hcc] at h; rw [h3]; omega)
      rw [h3] at h2
      have h4 : (lsbStream (f :: fs)).drop bs.length =
          (lsbStream fs).drop (bs.length - f.length) := by
        rw [lsbStream_cons, List.drop_append_eq_append_drop, h1]
        simp only [List.nil_append, List.length_map]
      rw [h1, List.append_nil, h2, h4, ← List.append_assoc, List.take_append_drop]

theorem xor_encrypt_eq_some {data : List Nat} {pw : String} (h : pw ≠ "") :
    xor_encrypt data pw = some ((List.range data.length).map
      (fun i => data.getD i 0 ^^^ (strBytes pw).getD (i % (strBytes pw).length) 0)) := by
  unfold xor_encrypt
  rw [if_neg]
  rintro ⟨hd, hk⟩
  apply h
  have hdata : pw.data = [] := by
    unfold strBytes at hk
    exact List.map_eq_nil_iff.mp hk
  exact String.ext (hdata.trans rfl)

theorem embed_video_eq {video_len : Nat} {frames : List (List Nat)} {w h : Nat}
    {pw : String} {msg : Option String} {file : Option (List Nat)} {fn : Option String}
    {enc : List Nat}
    (hx : xor_encrypt (jsonDumps (buildPayloadObj msg file fn)) pw = some enc) :
    embed_video video_len frames w h pw msg file fn =
      if pw = "" then .error "Password is required for video steganography"
      else if ¬msgTruthy msg ∧ ¬fileTruthy file then
        .error "Either secret_message or secret_file must be provided"
      else if MAX_VIDEO_BYTES < video_len then .error "Video too large for this server plan"
      else if w = 0 ∨ h = 0 then .error "Invalid video dimensions"
      else if 4294967296 ≤ (base64_encode enc).length then .error "OverflowError"
      else if frames.length * w * h * 3 <
          (VMAGIC ++ toBytesBE 4 (base64_encode enc).length ++ base64_encode enc).length * 8 then
        .error "Payload too large for this video"
      else if (embedFrames frames (bytes_to_bits (VMAGIC ++
          toBytesBE 4 (base64_encode enc).length ++ base64_encode enc))).2 ≠ [] then
        .error "Unexpected error: ran out of frames before embedding completed"
      else .ok (embedFrames frames (bytes_to_bits (VMAGIC ++
          toBytesBE 4 (base64_encode enc).length ++ base64_encode enc))).1 := by
  unfold embed_video
  rw [hx]

theorem videoArmored_eq {msg : Option String} {file : Option (List Nat)} {fn : Option String}
    {pw : String} {enc : List Nat}
    (hx : xor_encrypt (jsonDumps (buildPayloadObj msg file fn)) pw = some enc) :
    videoArmored msg file fn pw = base64_encode enc := by
  unfold videoArmored
  rw [hx]
  rfl

theorem exceptBind_err {α β : Type} (x : String) (f : α → Except String β) :
    (Except.error x : Except String α).bind f = .error x := rfl

theorem read_bits_err {wav : List Nat} {off ts count start : Nat}
    (h0 : count ≠ 0) (h : ts < start + count) :
    read_bits wav off ts count start = .error "Truncated payload" := by
  unfold read_bits
  rw [if_pos ⟨h0, h⟩]

theorem embed_video_ok {video_len : Nat} {frames : List (List Nat)} {w h : Nat}
    {pw : String} {msg : Option String} {file : Option (List Nat)} {fn : Option String}
    {out : List (List Nat)}
    (hok : embed_video video_len frames w h pw msg file fn = .ok out) :
    pw ≠ "" ∧ (msgTruthy msg ∨ fileTruthy file) ∧ video_len ≤ MAX_VIDEO_BYTES ∧
      w ≠ 0 ∧ h ≠ 0 ∧
      (videoArmored msg file fn pw).length < 4294967296 ∧
      (videoFullPayload msg file fn pw).length * 8 ≤ frames.length * w * h * 3 ∧
      (bytes_to_bits (videoFullPayload msg file fn pw)).length ≤ (concatBytes frames).length ∧
      out = (embedFrames frames (bytes_to_bits (videoFullPayload msg file fn pw))).1 := by
  by_cases hpw : pw = ""
  · unfold embed_video at hok
    rw [if_pos hpw] at hok
    exact Except.noConfusion hok
  · have hxe := @xor_encrypt_eq_some
      (jsonDumps (buildPayloadObj msg file fn)) pw hpw
    have harm := videoArmored_eq hxe
    have hfull : videoFullPayload msg file fn pw =
        VMAGIC ++ toBytesBE 4 (base64_encode ((List.range
          (jsonDumps (buildPayloadObj msg file fn)).length).map
            (fun i => (jsonDumps (buildPayloadObj msg file fn)).getD i 0 ^^^
              (strBytes pw).getD (i % (strBytes pw).length) 0))).length ++
          base64_encode ((List.range (jsonDumps (buildPayloadObj msg file fn)).length).map
            (fun i => (jsonDumps (buildPayloadObj msg file fn)).getD i 0 ^^^
              (strBytes pw).getD (i % (strBytes pw).length) 0)) := by
      unfold videoFullPayload
      rw [harm]
    rw [embed_video_eq hxe, if_neg hpw] at hok
    by_cases h2 : ¬msgTruthy msg ∧ ¬fileTruthy file
    · rw [if_pos h2] at hok; exact Except.noConfusion hok
    · rw [if_neg h2] at hok
      by_cases h3 : MAX_VIDEO_BYTES < video_len
      · rw [if_pos h3] at hok; exact Except.noConfusion hok
      · rw [if_neg h3] at hok
        by_cases h4 : w = 0 ∨ h = 0
        · rw [if_pos h4] at hok; exact Except.noConfusion hok
        · rw [if_neg h4] at hok
          by_cases h5 : 4294967296 ≤ (base64_encode ((List.range
              (jsonDumps (buildPayloadObj msg file fn)).length).map
                (fun i => (jsonDumps (buildPayloadObj msg file fn)).getD i 0 ^^^
                  (strBytes pw).getD (i % (strBytes pw).length) 0))).length
          · rw [if_pos h5] at hok; exact Except.noConfusion hok
          · rw [if_neg h5] at hok
            by_cases h6 : frames.length * w * h * 3 <
                (VMAGIC ++ toBytesBE 4 (base64_encode ((List.range
                  (jsonDumps (buildPayloadObj msg file fn)).length).map
                    (fun i => (jsonDumps (buildPayloadObj msg file fn)).getD i 0 ^^^
                      (strBytes pw).getD (i % (strBytes pw).length) 0))).length ++
                  base64_encode ((List.range
                    (jsonDumps (buildPayloadObj msg file fn)).length).map
                      (fun i => (jsonDumps (buildPayloadObj msg file fn)).getD i 0 ^^^
                        (strBytes pw).getD (i % (strBytes pw).length) 0))).length * 8
            · rw [if_pos h6] at hok; exact Except.noConfusion hok
            · rw [if_neg h6] at hok
              by_cases h7 : (embedFrames frames (bytes_to_bits (VMAGIC ++
                  toBytesBE 4 (base64_encode ((List.range
                    (jsonDumps (buildPayloadObj msg file fn)).length).map
                      (fun i => (jsonDumps (buildPayloadObj msg file fn)).getD i 0 ^^^
                        (strBytes pw).getD (i % (strBytes pw).length) 0))).length ++
                    base64_encode ((List.range
                      (jsonDumps (buildPayloadObj msg file fn)).length).map
                        (fun i => (jsonDumps (buildPayloadObj msg file fn)).getD i 0 ^^^
                          (strBytes pw).getD (i % (strBytes pw).length) 0))))).2 ≠ []
              · rw [if_pos h7] at hok; exact Except.noConfusion hok
              · rw [if_neg h7] at hok
                push_neg at h7
                refine ⟨hpw, by tauto, by omega, ?_, ?_, ?_, ?_, ?_, ?_⟩
                · intro hw0; exact h4 (Or.inl hw0)
                · intro hh0; exact h4 (Or.inr hh0)
                · rw [harm]; omega
                · rw [hfull]; omega
                · rw [hfull]
                  have := embedFrames_snd frames (bytes_to_bits (VMAGIC ++
                    toBytesBE 4 (base64_encode ((List.range
                      (jsonDumps (buildPayloadObj msg file fn)).length).map
                        (fun i => (jsonDumps (buildPayloadObj msg file fn)).getD i 0 ^^^
                          (strBytes pw).getD (i % (strBytes pw).length) 0))).length ++
                      base64_encode ((List.range
                        (jsonDumps (buildPayloadObj msg file fn)).length).map
                          (fun i => (jsonDumps (buildPayloadObj msg file fn)).getD i 0 ^^^
                            (strBytes pw).getD (i % (strBytes pw).length) 0))))
                  rw [h7] at this
                  have hle := List.drop_eq_nil_iff_le.mp this.symm
                  omega
                · rw [hfull]
                  exact (Except.ok.inj hok).symm

/-- C1: Audio round-trip: for every valid WAV carrier with sufficient
capacity (any carrier, payload, password and flag choice on which
`embed_audio` succeeds), extracting from the embedded carrier with the same
password and encrypt flag returns exactly the original payload bytes. -/
theorem C1_audio_roundtrip (wav payload : List Nat) (password : String)
    (encrypt use_ecc : Bool) (hpay : isBytes payload)
    (hok : isOkB (embed_audio wav payload password encrypt use_ecc) = true) :
    (embed_audio wav payload password encrypt use_ecc).bind
      (fun stego => extract_audio stego password encrypt) = .ok payload := by
  rcases hemb : embed_audio wav payload password encrypt use_ecc with er | stego
  · rw [hemb] at hok
    exact Bool.noConfusion hok
  · rw [exceptBind_ok]
    exact extract_of_embed hpay hemb

set_option maxRecDepth 100000 in
/-- Witness for C1: embedding the byte 104 with password "pw", encryption and
ECC on, into a concrete WAV carrier and extracting again returns [104]. -/
theorem C1_audio_roundtrip_witness :
    (embed_audio wavC1 [104] "pw" true true).bind
      (fun stego => extract_audio stego "pw" true) = .ok [104] :=
  C1_audio_roundtrip wavC1 [104] "pw" true true (by decide) (by decide)

/-- C2 as stated is false: `embed_audio` with `use_ecc` does not Hamming-encode
the concatenation of header and body bits. At the concrete input
(payload `[]`, password "x", encrypt off) the embedded byte string is the
plain 9-byte header, while Hamming-encoding header plus body would give 16
bytes starting with an encoded magic. -/
theorem C2_counterexample :
    audioFull [] "x" false true ≠
      bits_to_bytes (hamming_encode (bytes_to_bits (audioHeader [] "x" false true) ++
        bytes_to_bits (audioEncrypted [] "x" false))) := by decide

/-- C2 amended: when `use_ecc` is set, `embed_audio` Hamming-encodes only the
body bits (the encrypted payload); the header `MAGIC|flags|len32` is embedded
unencoded, and the written LSB stream is exactly the bits of
`header ++ bits_to_bytes (hamming_encode (body bits))`. -/
theorem C2_amended {wav payload stego : List Nat} {pw : String} {e : Bool}
    (hok : embed_audio wav payload pw e true = .ok stego) :
    ∃ off size sw, parse_wav wav = some (off, size, sw) ∧
      ∀ k, k < audioTotalBits payload pw e true →
        lsbAt stego off k =
          (bytes_to_bits (audioHeader payload pw e true ++
            bits_to_bytes (hamming_encode
              (bytes_to_bits (audioEncrypted payload pw e))))).getD k false := by
  obtain ⟨off, size, sw, hp, h1, h2, h3, hout⟩ := embed_audio_ok hok
  refine ⟨off, size, sw, hp, ?_⟩
  intro k hk
  have hfull : audioHeader payload pw e true ++
      bits_to_bytes (hamming_encode (bytes_to_bits (audioEncrypted payload pw e))) =
      audioFull payload pw e true := rfl
  rw [hout, hfull]
  have hwavlen : off + size ≤ wav.length := (parse_wav_le hp).2
  exact lsbAt_writeBits hk (by
      show audioTotalBits payload pw e true ≤ _
      unfold audioTotalBits
      omega)
    (by omega)

set_option maxRecDepth 100000 in
/-- Witness for the amended C2 at a concrete embedding. -/
theorem C2_amended_witness :
    ∃ off size sw, parse_wav wavC1 = some (off, size, sw) ∧
      ∀ k, k < audioTotalBits [1] "x" false true →
        lsbAt stegoC2 off k =
          (bytes_to_bits (audioHeader [1] "x" false true ++
            bits_to_bytes (hamming_encode
              (bytes_to_bits (audioEncrypted [1] "x" false))))).getD k false :=
  C2_amended (show embed_audio wavC1 [1] "x" false true = .ok stegoC2 from rfl)

/-- C3: for a declared encrypted byte count `N`, the ECC-expanded body is
exactly `ceil(N*8/4)*7` bits: `extract_audio` computes the count with
`body_bits_of true N = (N*8*7+3)/4`, which equals `((N*8+3)/4)*7` (the
spec's `ceil(N*8/4)*7`) for every natural `N`, and the Hamming encoding of
any `N`-byte body has exactly that many bits. The expression depends only on
the decoded length field, not on the carrier capacity. -/
theorem C3_ecc_body_bits (N : Nat) (bs : List Nat) (hlen : bs.length = N) :
    body_bits_of true N = ((N * 8 + 3) / 4) * 7 ∧
    (hamming_encode (bytes_to_bits bs)).length = body_bits_of true N := by
  subst hlen
  constructor
  · unfold body_bits_of
    simp only [if_true]
    omega
  · rw [length_hamming_encode, length_bytes_to_bits]
    unfold body_bits_of
    simp only [if_true]
    omega

/-- Witness for C3 at N = 3. -/
theorem C3_ecc_body_bits_witness :
    body_bits_of true 3 = ((3 * 8 + 3) / 4) * 7 ∧
    (hamming_encode (bytes_to_bits [1, 2, 3])).length = body_bits_of true 3 :=
  C3_ecc_body_bits 3 [1, 2, 3] (by decide)

/-- C4: capacity boundary of `embed_audio`: with a parsable carrier, a
password passing the check and a length field that fits 32 bits, an embedding
whose total bit count exactly equals the capacity `dataByteLength / 2`
succeeds, and one whose total exceeds the capacity fails with the capacity
error and produces no output. -/
theorem C4_capacity (wav payload : List Nat) (pw : String) (e ecc : Bool)
    (off size sw : Nat) (hp : parse_wav wav = some (off, size, sw))
    (hpw : ¬(e = true ∧ pw = ""))
    (hlen : (audioEncrypted payload pw e).length < 4294967296) :
    (audioTotalBits payload pw e ecc = size / 2 →
      ∃ out, embed_audio wav payload pw e ecc = .ok out) ∧
    (size / 2 < audioTotalBits payload pw e ecc →
      embed_audio wav payload pw e ecc = .error "Not enough capacity in carrier audio") := by
  rw [embed_audio_eq_some payload pw e ecc hp]
  constructor
  · intro heq
    rw [if_neg hpw, if_neg (by omega), if_neg (by omega)]
    exact ⟨_, rfl⟩
  · intro hlt
    rw [if_neg hpw, if_neg (by omega), if_pos hlt]

set_option maxRecDepth 100000 in
/-- Witness for C4: the empty unencrypted, un-ECC payload needs exactly 72
bits; embedding succeeds on the 72-sample carrier and fails with the
capacity error on the 71-sample carrier. -/
theorem C4_capacity_witness :
    (∃ out, embed_audio wavC4 [] "" false false = .ok out) ∧
    embed_audio wavC4s [] "" false false = .error "Not enough capacity in carrier audio" :=
  ⟨(C4_capacity wavC4 [] "" false false 20 144 2 (by decide) (by decide) (by decide)).1
      (by decide),
    (C4_capacity wavC4s [] "" false false 20 142 2 (by decide) (by decide) (by decide)).2
      (by decide)⟩

/-- C5: frame effect of `embed_audio` on a byte carrier: the output has the
same length; every byte other than the low bytes `dataOffset + i*2` of the
first `totalBits` samples is unchanged; and at a written byte only bit 0 may
change: every bit of index 1 or above is preserved. -/
theorem C5_frame_effect {wav payload stego : List Nat} {pw : String} {e ecc : Bool}
    {off size sw : Nat}
    (hw : isBytes wav)
    (hok : embed_audio wav payload pw e ecc = .ok stego)
    (hp : parse_wav wav = some (off, size, sw)) :
    stego.length = wav.length ∧
    (∀ j, j < wav.length → (∀ i, i < audioTotalBits payload pw e ecc → j ≠ off + i * 2) →
      stego.getD j 0 = wav.getD j 0) ∧
    (∀ i, i < audioTotalBits payload pw e ecc → ∀ b, 1 ≤ b →
      (stego.getD (off + i * 2) 0).testBit b = (wav.getD (off + i * 2) 0).testBit b) := by
  obtain ⟨off', size', sw', hp', h1, h2, h3, hout⟩ := embed_audio_ok hok
  have heq := Option.some.inj (hp.symm.trans hp')
  obtain ⟨rfl, rfl, rfl⟩ : off = off' ∧ size = size' ∧ sw = sw' := by
    refine ⟨congrArg Prod.fst heq, ?_, ?_⟩
    · exact congrArg (fun p => p.2.1) heq
    · exact congrArg (fun p => p.2.2) heq
  have hwavlen : off + size ≤ wav.length := (parse_wav_le hp).2
  refine ⟨by rw [hout]; exact length_writeBits _ _ _ _, ?_, ?_⟩
  · intro j hj hnot
    rw [hout]
    exact writeBits_getD_untouched _ _ _ _ _ hnot
  · intro i hi b hb
    have hrange : off + i * 2 < wav.length := by omega
    rw [hout, writeBits_getD_written _ _ _ hi hrange]
    exact testBit_write_succ _ _ _ (bitAt_le_one _ _) hb
      (by rw [List.getD_eq_getElem wav 0 hrange]; exact hw _ (List.getElem_mem hrange))

/-- C6: tamper detection via magic. Audio: if the first 32 embedded LSB bits
of a parsable carrier do not decode to "STG1", `extract_audio` fails with the
format error "No payload found". Video: if the first 4 recovered header bytes
of the frame stream differ from "VST2", `extract_video` fails with the magic
mismatch error. No decoded payload is returned in either case. -/
theorem C6_magic_check :
    (∀ (wav : List Nat) (pw : String) (e : Bool) (off size sw : Nat),
      parse_wav wav = some (off, size, sw) → ¬(e = true ∧ pw = "") → 32 ≤ size / 2 →
      (bits_to_bytes (lsbSlice wav off 0 32)).take 4 ≠ MAGIC →
      extract_audio wav pw e = .error "No payload found") ∧
    (∀ (vl : Nat) (frames : List (List Nat)) (w h : Nat) (pw : String),
      pw ≠ "" → vl ≤ MAX_VIDEO_BYTES → w ≠ 0 → h ≠ 0 →
      ¬((lsbStream frames).length < HEADER_SIZE * 8) →
      (bits_to_bytes ((lsbStream frames).take (HEADER_SIZE * 8))).take 4 ≠ VMAGIC →
      extract_video vl frames w h pw =
        .error "No embedded payload found in video (magic mismatch)") := by
  constructor
  · intro wav pw e off size sw hp hpw hsamp hmag
    rw [extract_audio_eq_some pw e hp, if_neg hpw]
    simp only [read_bits_ok (show (0 : Nat) + 32 ≤ size / 2 by omega), exceptBind_ok]
    rw [if_neg hmag]
  · intro vl frames w h pw hpw hvl hw hh hstream hmag
    unfold extract_video
    rw [if_neg hpw, if_neg (by omega), if_neg (by push_neg; exact ⟨hw, hh⟩),
        if_neg hstream, if_pos hmag]

set_option maxRecDepth 100000 in
/-- Witness for C6: an all-zero carrier decodes a zero magic in both media. -/
theorem C6_magic_check_witness :
    extract_audio wavC6 "p" false = .error "No payload found" ∧
    extract_video 0 framesC6 4 4 "k" =
      .error "No embedded payload found in video (magic mismatch)" :=
  ⟨C6_magic_check.1 wavC6 "p" false 20 64 2 (by decide) (by decide) (by decide) (by decide),
    C6_magic_check.2 0 framesC6 4 4 "k" (by decide) (by decide) (by decide) (by decide)
      (by decide) (by decide)⟩

/-- C7: truncation errors. Audio: when the header parses but the carrier has
fewer sample bits than the 72 header bits plus the declared body bit count,
`extract_audio` fails with "Truncated payload". Video: when the frame stream
ends before the 64 header bits are collected, or before `length*8` payload
bits follow a valid header, `extract_video` fails with the corresponding
truncation error. No partial payload is returned in any case. -/
theorem C7_truncation :
    (∀ (wav : List Nat) (pw : String) (e : Bool) (off size sw : Nat),
      parse_wav wav = some (off, size, sw) → ¬(e = true ∧ pw = "") →
      72 ≤ size / 2 →
      (bits_to_bytes (lsbSlice wav off 0 32)).take 4 = MAGIC →
      size / 2 < 72 + body_bits_of
        ((bits_to_bytes (lsbSlice wav off 32 8)).getD 0 0 &&& 1 == 1)
        (fromBytesBE ((bits_to_bytes (lsbSlice wav off 40 32)).take 4)) →
      extract_audio wav pw e = .error "Truncated payload") ∧
    (∀ (vl : Nat) (frames : List (List Nat)) (w h : Nat) (pw : String),
      pw ≠ "" → vl ≤ MAX_VIDEO_BYTES → w ≠ 0 → h ≠ 0 →
      (lsbStream frames).length < HEADER_SIZE * 8 →
      extract_video vl frames w h pw =
        .error "No embedded payload found in video (incomplete header)") ∧
    (∀ (vl : Nat) (frames : List (List Nat)) (w h : Nat) (pw : String),
      pw ≠ "" → vl ≤ MAX_VIDEO_BYTES → w ≠ 0 → h ≠ 0 →
      ¬((lsbStream frames).length < HEADER_SIZE * 8) →
      (bits_to_bytes ((lsbStream frames).take (HEADER_SIZE * 8))).take 4 = VMAGIC →
      fromBytesBE ((bits_to_bytes ((lsbStream frames).take (HEADER_SIZE * 8))).drop 4) ≠ 0 →
      (lsbStream frames).length < HEADER_SIZE * 8 +
        fromBytesBE ((bits_to_bytes ((lsbStream frames).take (HEADER_SIZE * 8))).drop 4) * 8 →
      extract_video vl frames w h pw =
        .error "Stego video ended before payload was fully read") := by
  refine ⟨?_, ?_, ?_⟩
  · intro wav pw e off size sw hp hpw h72 hmag hover
    rw [extract_audio_eq_some pw e hp, if_neg hpw]
    simp only [read_bits_ok (show (0 : Nat) + 32 ≤ size / 2 by omega), exceptBind_ok]
    rw [if_pos hmag]
    simp only [read_bits_ok (show (32 : Nat) + 8 ≤ size / 2 by omega), exceptBind_ok]
    simp only [read_bits_ok (show (40 : Nat) + 32 ≤ size / 2 by omega), exceptBind_ok]
    rw [read_bits_err (by omega) (by omega), exceptBind_err]
  · intro vl frames w h pw hpw hvl hw hh hshort
    unfold extract_video
    rw [if_neg hpw, if_neg (by omega), if_neg (by push_neg; exact ⟨hw, hh⟩), if_pos hshort]
  · intro vl frames w h pw hpw hvl hw hh hlong hmag hlen hend
    unfold extract_video
    rw [if_neg hpw, if_neg (by omega), if_neg (by push_neg; exact ⟨hw, hh⟩),
        if_neg hlong, if_neg (by rw [hmag]; exact fun hc => hc rfl), if_neg hlen,
        if_pos hend]

set_option maxRecDepth 100000 in
/-- Witness for C7 at three concrete truncated carriers. -/
theorem C7_truncation_witness :
    extract_audio wavC7 "p" false = .error "Truncated payload" ∧
    extract_video 0 framesC7a 4 4 "k" =
      .error "No embedded payload found in video (incomplete header)" ∧
    extract_video 0 framesC7b 4 4 "k" =
      .error "Stego video ended before payload was fully read" :=
  ⟨C7_truncation.1 wavC7 "p" false 20 144 2 (by decide) (by decide) (by decide)
      (by decide) (by decide),
    C7_truncation.2.1 0 framesC7a 4 4 "k" (by decide) (by decide) (by decide)
      (by decide) (by decide),
    C7_truncation.2.2 0 framesC7b 4 4 "k" (by decide) (by decide) (by decide)
      (by decide) (by decide) (by decide) (by decide) (by decide)⟩

/-- C8: video header and capacity arithmetic: under the entry guards, the
full embedded payload is 8 header bytes (the magic "VST2" and the big-endian
32-bit byte count of the base64-armored encrypted payload) followed by the
armored bytes; `embed_video` fails with the capacity error exactly when
`(8 + armoredBytes) * 8` exceeds `frameCount * width * height * 3`; and every
successful embedding writes the 64 header bits `VST2 | len32` first. -/
theorem C8_video_header_capacity (vl : Nat) (frames : List (List Nat)) (w h : Nat)
    (pw : String) (msg : Option String) (file : Option (List Nat)) (fn : Option String)
    (hpw : pw ≠ "") (hsecret : msgTruthy msg = true ∨ fileTruthy file = true)
    (hvl : vl ≤ MAX_VIDEO_BYTES) (hw : w ≠ 0) (hh : h ≠ 0)
    (harm32 : (videoArmored msg file fn pw).length < 4294967296) :
    (videoFullPayload msg file fn pw).length = 8 + (videoArmored msg file fn pw).length ∧
    (embed_video vl frames w h pw msg file fn = .error "Payload too large for this video" ↔
      frames.length * w * h * 3 < (8 + (videoArmored msg file fn pw).length) * 8) ∧
    (∀ out, embed_video vl frames w h pw msg file fn = .ok out →
      (lsbStream out).take 64 =
        bytes_to_bits (VMAGIC ++ toBytesBE 4 (videoArmored msg file fn pw).length)) := by
  obtain ⟨enc, hxe⟩ : ∃ enc,
      xor_encrypt (jsonDumps (buildPayloadObj msg file fn)) pw = some enc :=
    ⟨_, xor_encrypt_eq_some hpw⟩
  have harm : videoArmored msg file fn pw = base64_encode enc := videoArmored_eq hxe
  have hfl : (videoFullPayload msg file fn pw).length =
      8 + (videoArmored msg file fn pw).length := by
    unfold videoFullPayload
    simp [VMAGIC, length_toBytesBE]
    omega
  have hlen8 : (VMAGIC ++ toBytesBE 4 (base64_encode enc).length ++
      base64_encode enc).length = 8 + (base64_encode enc).length := by
    simp [VMAGIC, length_toBytesBE]
    omega
  have hsec : ¬(¬msgTruthy msg = true ∧ ¬fileTruthy file = true) := by tauto
  have hovf : ¬(4294967296 ≤ (base64_encode enc).length) := by
    rw [harm] at harm32
    omega
  refine ⟨hfl, ?_, ?_⟩
  · constructor
    · intro herr
      by_contra hcap
      push_neg at hcap
      rw [embed_video_eq hxe, if_neg hpw, if_neg hsec, if_neg (by omega),
          if_neg (by push_neg; exact ⟨hw, hh⟩), if_neg hovf,
          if_neg (by rw [hlen8]; rw [harm] at hcap; omega)] at herr
      split_ifs at herr with hrun
      · exact absurd (Except.error.inj herr) (by decide)
    · intro hcap
      rw [embed_video_eq hxe, if_neg hpw, if_neg hsec, if_neg (by omega),
          if_neg (by push_neg; exact ⟨hw, hh⟩), if_neg hovf,
          if_pos (by rw [hlen8]; rw [harm] at hcap; omega)]
  · intro out hok2
    obtain ⟨_, _, _, _, _, _, _, hbits, hout⟩ := embed_video_ok hok2
    rw [hout, lsbStream_embedFrames hbits,
        List.take_append_of_le_length (by rw [length_bytes_to_bits, hfl]; omega),
        bytes_to_bits_take' _ (show (64 : Nat) = 8 * 8 from rfl)]
    congr 1

set_option maxRecDepth 100000 in
/-- Witness for C8 with the one-character text secret "A" and password "k":
the armored payload is 40 bytes, so 384 bits are needed and the 384-bit
carrier is exactly large enough. -/
theorem C8_video_header_capacity_witness :
    (videoFullPayload (some "A") none none "k").length =
      8 + (videoArmored (some "A") none none "k").length ∧
    (embed_video 0 framesC8 16 8 "k" (some "A") none none =
        .error "Payload too large for this video" ↔
      framesC8.length * 16 * 8 * 3 < (8 + (videoArmored (some "A") none none "k").length) * 8) ∧
    (∀ out, embed_video 0 framesC8 16 8 "k" (some "A") none none = .ok out →
      (lsbStream out).take 64 =
        bytes_to_bits (VMAGIC ++ toBytesBE 4 (videoArmored (some "A") none none "k").length)) :=
  C8_video_header_capacity 0 framesC8 16 8 "k" (some "A") none none (by decide)
    (Or.inl (by decide)) (by decide) (by decide) (by decide) (by decide)

set_option maxRecDepth 100000 in
/-- C9 is contradicted by the code: neither `embed_video` nor `extract_video`
has an `encrypt` parameter, so the repository's own API layer, which passes
`encrypt=...` to both (`app.py`), raises `TypeError` on every video call
under Python keyword binding; and the XOR encryption cannot be switched off:
extracting a carrier holding the unencrypted armored payload with the correct
password does not return the text, because `_decrypt` is applied
unconditionally and garbles it into a JSON parse failure. -/
theorem C9_no_encrypt_flag :
    kwargsAccepted embedVideoKeywords appEmbedVideoKwargs = false ∧
    kwargsAccepted extractVideoKeywords appExtractVideoKwargs = false ∧
    "encrypt" ∉ embedVideoKeywords ∧ "encrypt" ∉ extractVideoKeywords ∧
    extract_video 0 framesC9 4 4 "k" = .error "Invalid embedded data format" := by
  refine ⟨by decide, by decide, by decide, by decide, ?_⟩
  rfl

/-- C10: every public video call checks the password before any cipher use:
`embed_video` and `extract_video` fail on an empty password at entry, and on
every non-empty password the repeating-key XOR `_encrypt`/`_decrypt` is total
(the index expression `key[i % len(key)]` never divides by zero). -/
theorem C10_password_guard :
    (∀ (vl : Nat) (frames : List (List Nat)) (w h : Nat) (msg : Option String)
      (file : Option (List Nat)) (fn : Option String),
      embed_video vl frames w h "" msg file fn =
        .error "Password is required for video steganography") ∧
    (∀ (vl : Nat) (frames : List (List Nat)) (w h : Nat),
      extract_video vl frames w h "" =
        .error "Password is required for video steganography") ∧
    (∀ (data : List Nat) (pw : String), pw ≠ "" → (xor_encrypt data pw).isSome = true) ∧
    (∀ (data : List Nat) (pw : String), pw ≠ "" → (xor_decrypt data pw).isSome = true) := by
  refine ⟨?_, ?_, ?_, ?_⟩
  · intro vl frames w h msg file fn
    unfold embed_video
    rw [if_pos rfl]
  · intro vl frames w h
    unfold extract_video
    rw [if_pos rfl]
  · intro data pw hpw
    rw [xor_encrypt_eq_some hpw]
    rfl
  · intro data pw hpw
    unfold xor_decrypt
    rw [xor_encrypt_eq_some hpw]
    rfl

/-- Witness for C10 at concrete calls. -/
theorem C10_password_guard_witness :
    embed_video 0 [] 1 1 "" (some "m") none none =
      .error "Password is required for video steganography" ∧
    extract_video 0 [] 1 1 "" = .error "Password is required for video steganography" ∧
    (xor_encrypt [5] "k").isSome = true ∧
    (xor_decrypt [] "k").isSome = true :=
  ⟨C10_password_guard.1 0 [] 1 1 (some "m") none none,
    C10_password_guard.2.1 0 [] 1 1,
    C10_password_guard.2.2.1 [5] "k" (by decide),
    C10_password_guard.2.2.2 [] "k" (by decide)⟩

set_option maxRecDepth 100000 in
/-- Witness for C5 at a concrete embedding filling the carrier. -/
theorem C5_frame_effect_witness :
    stegoC5.length = wavC5.length ∧
    (∀ j, j < wavC5.length → (∀ i, i < audioTotalBits [2] "q" false false → j ≠ 20 + i * 2) →
      stegoC5.getD j 0 = wavC5.getD j 0) ∧
    (∀ i, i < audioTotalBits [2] "q" false false → ∀ b, 1 ≤ b →
      (stegoC5.getD (20 + i * 2) 0).testBit b = (wavC5.getD (20 + i * 2) 0).testBit b) :=
  @C5_frame_effect wavC5 [2] stegoC5 "q" false false 20 160 2 (by decide)
    (show embed_audio wavC5 [2] "q" false false = .ok stegoC5 from rfl) (by decide)

